import Mathlib

/-!
A shallow embedding of the `ndtm-rs` non-deterministic Turing machine
simulator, together with theorems settling the specification claims.

Modelling conventions:
* `u8` symbols are `Nat` values (only equality is ever used on symbols).
* A cell buffer `[u8; W]` is a `List Nat` (expected length `W`); the cell
  width `W` is passed explicitly where the Rust code uses the const generic.
* `Rc<RefCell<_>>` heap sharing is modelled by an explicit allocate-only
  store (`Heap`): `Rc::new` appends, `borrow` reads by index, an in-place
  buffer mutation updates the store entry.  `Rc::try_unwrap` on a `Same`
  link (statically unique in the source) is modelled as reading the entry.
* Panics (`unwrap`, explicit `panic!`) are modelled by `Option`, with
  `none` standing for the panic.
-/

namespace NdtmRs

/-- Tape head movement (`tape::Movement`). -/
inductive Movement
  | Left
  | Right
  | Stay
deriving DecidableEq, Repr

/-- Which half of the two-cell cache window is meant (`tape::cache::Side`). -/
inductive Side
  | Left
  | Right
deriving DecidableEq, Repr

/-- Result of a cache shift (`tape::cache::ShiftRet`). -/
inductive ShiftRet
  | Stay
  | InCache (s : Side)
  | OutCacheFail (s : Side)
deriving DecidableEq, Repr

/-- The two-cell window cache over the tape cursor (`tape::cache::Cache`).
`dirty.1` is the Rust `dirty.0` (left half), `dirty.2` the Rust `dirty.1`
(right half). -/
structure Cache where
  buffer_l : List Nat
  buffer_r : List Nat
  cursor : Nat
  current : Side
  dirty : Bool × Bool
deriving DecidableEq, Repr

/-- `Cache::new`: left half loaded with `left`, right (active) half with
`current`, cursor at 0, active side `Right`, both halves clean. -/
def Cache.new (current left : List Nat) : Cache :=
  { buffer_l := left
    buffer_r := current
    cursor := 0
    current := Side.Right
    dirty := (false, false) }

/-- `Cache::read`: the symbol at the cursor of the active half. -/
def Cache.read (c : Cache) : Nat :=
  match c.current with
  | Side.Left => c.buffer_l.getD c.cursor 0
  | Side.Right => c.buffer_r.getD c.cursor 0

/-- `Cache::write`: write at the cursor of the active half, return the
previous symbol, set that half's dirty flag if the symbol changed. -/
def Cache.write (c : Cache) (symb : Nat) : Nat × Cache :=
  match c.current with
  | Side.Left =>
    let old := c.buffer_l.getD c.cursor 0
    let c' := { c with
      buffer_l := c.buffer_l.set c.cursor symb
      dirty := if old ≠ symb then (true, c.dirty.2) else c.dirty }
    (old, c')
  | Side.Right =>
    let old := c.buffer_r.getD c.cursor 0
    let c' := { c with
      buffer_r := c.buffer_r.set c.cursor symb
      dirty := if old ≠ symb then (c.dirty.1, true) else c.dirty }
    (old, c')

/-- `Cache::shift`: move the cursor inside the window when possible,
otherwise report a miss in the given direction. -/
def Cache.shift (c : Cache) (W : Nat) (dir : Movement) : ShiftRet × Cache :=
  match dir with
  | Movement.Left =>
    if c.cursor > 0 then
      (ShiftRet.Stay, { c with cursor := c.cursor - 1 })
    else if c.current = Side.Right then
      (ShiftRet.InCache Side.Left, { c with cursor := W - 1, current := Side.Left })
    else
      (ShiftRet.OutCacheFail Side.Left, c)
  | Movement.Right =>
    if c.cursor < W - 1 then
      (ShiftRet.Stay, { c with cursor := c.cursor + 1 })
    else if c.current = Side.Left then
      (ShiftRet.InCache Side.Right, { c with cursor := 0, current := Side.Right })
    else
      (ShiftRet.OutCacheFail Side.Right, c)
  | Movement.Stay => (ShiftRet.Stay, c)

/-- `Cache::shift_flush`: after a miss, slide the window one cell in the
miss direction, loading `new_content` into the vacated half and returning
the displaced half's buffer when it was dirty.  `none` models the panics
on calls without a preceding miss. -/
def Cache.shift_flush (c : Cache) (W : Nat) (dir : Movement)
    (new_content : List Nat) : Option (Option (List Nat) × Cache) :=
  match dir with
  | Movement.Left =>
    if ¬(c.cursor = 0 ∧ c.current = Side.Left) then
      none
    else
      let o_right := c.buffer_r
      let c' := { c with
        current := Side.Left
        cursor := W - 1
        buffer_r := c.buffer_l
        buffer_l := new_content
        dirty := (false, c.dirty.1) }
      if c.dirty.2 then some (some o_right, c') else some (none, c')
  | Movement.Right =>
    if ¬(c.cursor = W - 1 ∧ c.current = Side.Right) then
      none
    else
      let o_left := c.buffer_l
      let c' := { c with
        current := Side.Right
        cursor := 0
        buffer_l := c.buffer_r
        buffer_r := new_content
        dirty := (c.dirty.2, false) }
      if c.dirty.1 then some (some o_left, c') else some (none, c')
  | Movement.Stay => none

/-- `Cache::flush_current`: the active half's buffer when dirty. -/
def Cache.flush_current (c : Cache) : Option (List Nat) :=
  match c.current with
  | Side.Left => if c.dirty.1 then some c.buffer_l else none
  | Side.Right => if c.dirty.2 then some c.buffer_r else none

/-- `Cache::flush_other`: the inactive side and (as written in the source)
a buffer for it when its dirty flag is set.  Note the source returns
`buffer_r` on both arms. -/
def Cache.flush_other (c : Cache) : Side × Option (List Nat) :=
  match c.current with
  | Side.Left =>
    (Side.Right, if c.dirty.2 then some c.buffer_r else none)
  | Side.Right =>
    (Side.Left, if c.dirty.1 then some c.buffer_r else none)

/-- Neighbor pointer of a cell (`tape::cells::Link`).  `Same` and `Uncle`
hold indices into the heap's cell store (the `Rc<RefCell<Cell>>`). -/
inductive Link
  | Edge
  | Same (id : Nat)
  | Uncle (id : Nat)
  | NoneL
deriving DecidableEq, Repr

/-- A tape cell (`tape::cells::Cell`).  `buf` indexes the heap's buffer
store (the `Rc<RefCell<[u8; W]>>`). -/
inductive Cell
  | Full (buf : Nat) (next : Link)
  | Ghost (buf : Nat) (next : Link)
  | Empty (next : Link)
deriving DecidableEq, Repr

/-- The explicit allocate-only store standing in for the `Rc` heap:
shared cells (targets of `Same`/`Uncle` links) and shared byte buffers. -/
structure Heap where
  cells : List Cell
  bufs : List (List Nat)
deriving DecidableEq, Repr

/-- `Link::to_uncle`: demote a link to a shared (`Uncle`) link. -/
def Link.to_uncle : Link → Link
  | Link.Edge => Link.Edge
  | Link.Same rc => Link.Uncle rc
  | Link.Uncle rc => Link.Uncle rc
  | Link.NoneL => Link.NoneL

/-- `Link::focus`: materialize the cell a link points at.  `Same` takes
ownership of the target, `Uncle` manufactures a `Ghost`/`Empty` copy with
transitively ghosted links, `Edge` materializes a fresh `Empty`.  `none`
models the panic on a `None` link (and a dangling index, impossible in
the source). -/
def Link.focus (l : Link) (h : Heap) : Option Cell :=
  match l with
  | Link.Edge => some (Cell.Empty Link.Edge)
  | Link.Same rc => h.cells.get? rc
  | Link.Uncle rc =>
    match h.cells.get? rc with
    | some (Cell.Full buffer next) => some (Cell.Ghost buffer next.to_uncle)
    | some (Cell.Ghost buffer next) => some (Cell.Ghost buffer next.to_uncle)
    | some (Cell.Empty next) => some (Cell.Empty next.to_uncle)
    | none => none
  | Link.NoneL => none

/-- `Cell::extract_next`: take the cell's link, leaving `NoneL` behind.
Returns `(old link, updated cell)`. -/
def Cell.extract_next : Cell → Link × Cell
  | Cell.Full buffer next => (next, Cell.Full buffer Link.NoneL)
  | Cell.Ghost buffer next => (next, Cell.Ghost buffer Link.NoneL)
  | Cell.Empty next => (next, Cell.Empty Link.NoneL)

/-- `Cell::set_next`. -/
def Cell.set_next : Cell → Link → Cell
  | Cell.Full buffer _, nxt => Cell.Full buffer nxt
  | Cell.Ghost buffer _, nxt => Cell.Ghost buffer nxt
  | Cell.Empty _, nxt => Cell.Empty nxt

/-- The cell's link (for stating invariants). -/
def Cell.nextLink : Cell → Link
  | Cell.Full _ next => next
  | Cell.Ghost _ next => next
  | Cell.Empty next => next

/-- `Cell::focus`: replace the cell by its next-along-direction neighbor.
Returns `(returned old cell, new cell standing in its place)`; the old
cell comes back with its link stripped to `NoneL`. -/
def Cell.focus (c : Cell) (h : Heap) : Option (Cell × Cell) :=
  let (next, c') := c.extract_next
  match next.focus h with
  | some nw => some (c', nw)
  | none => none

/-- `Cell::shift`: push `nw` in front of `old`, linking the displaced
`old` as the `Same` neighbor of `nw`.  Allocates `old` on the heap. -/
def Cell.shiftCell (old : Cell) (nw : Cell) (h : Heap) : Cell × Heap :=
  (nw.set_next (Link.Same h.cells.length), { h with cells := h.cells ++ [old] })

/-- `Cell::read`: buffer contents for `Full`/`Ghost`, nothing for
`Empty`. -/
def Cell.read (c : Cell) (h : Heap) : Option (List Nat) :=
  match c with
  | Cell.Full buffer _ => some (h.bufs.getD buffer [])
  | Cell.Ghost buffer _ => some (h.bufs.getD buffer [])
  | Cell.Empty _ => none

/-- `Cell::write`: `Full` mutates its buffer in place; `Ghost` and
`Empty` become `Full` over a freshly allocated buffer, keeping their
link. -/
def Cell.write (c : Cell) (buff : List Nat) (h : Heap) : Cell × Heap :=
  match c with
  | Cell.Full buffer next =>
    (Cell.Full buffer next, { h with bufs := h.bufs.set buffer buff })
  | Cell.Ghost _ next =>
    (Cell.Full h.bufs.length next, { h with bufs := h.bufs ++ [buff] })
  | Cell.Empty next =>
    (Cell.Full h.bufs.length next, { h with bufs := h.bufs ++ [buff] })

/-- `Cell::make_refs`: `num` shared (`Ghost`/`Empty`) copies of the cell,
links rewritten to `Uncle`. -/
def Cell.make_refs (c : Cell) (num : Nat) : List Cell :=
  match c with
  | Cell.Full buffer next => List.replicate num (Cell.Ghost buffer next.to_uncle)
  | Cell.Ghost buffer next => List.replicate num (Cell.Ghost buffer next.to_uncle)
  | Cell.Empty next => List.replicate num (Cell.Empty next.to_uncle)

/-- `cells::full_cell`: a `Full` cell over a fresh buffer, its link a
fresh `Same` allocation of `next` when given. -/
def full_cell (buffer : List Nat) (next : Option Cell) (h : Heap) : Cell × Heap :=
  let bid := h.bufs.length
  let h1 := { h with bufs := h.bufs ++ [buffer] }
  match next with
  | some x =>
    (Cell.Full bid (Link.Same h1.cells.length), { h1 with cells := h1.cells ++ [x] })
  | none => (Cell.Full bid Link.Edge, h1)

/-- `cells::empty_cell`. -/
def empty_cell : Cell := Cell.Empty Link.Edge

/-- The loop of `cells::cells_from_slice`: prepend the full-width slices
`buff[k*W .. (k+1)*W]` for `k = count-1, …, 0` in front of `head`. -/
def cells_from_slice_loop (W : Nat) (buff : List Nat) :
    Nat → Cell → Heap → Cell × Heap
  | 0, head, h => (head, h)
  | Nat.succ k, head, h =>
    let slice := (buff.drop (k * W)).take W
    let (head', h') := full_cell slice (some head) h
    cells_from_slice_loop W buff k head' h'

/-- `cells::cells_from_slice`: chain of `Full` cells packing `buff` `W`
bytes per cell, the trailing partial cell padded with `empty`. -/
def cells_from_slice (W : Nat) (buff : List Nat) (empty : Nat) (h : Heap) :
    Cell × Heap :=
  let full_cells := buff.length / W
  let last_rem := buff.length % W
  let rem_sl := buff.drop (W * full_cells)
  let buff_tmp := rem_sl ++ List.replicate (W - last_rem) empty
  let (head, h1) := full_cell buff_tmp none h
  cells_from_slice_loop W buff full_cells head h1

/-- The cursor-centered tape (`tape::Tape`): two-cell cache, blank
symbol, focus cell and its two immediate neighbors.  `left`'s link chain
runs leftward, `right`'s runs rightward, `focus` carries no link. -/
structure Tape where
  cache : Cache
  empty : Nat
  focus : Cell
  left : Cell
  right : Cell
deriving DecidableEq, Repr

/-- `Tape::create`: chain the initial slice into cells, focus the first
cell, empty left neighbor, cache primed so the first read returns the
first input symbol. -/
def Tape.create (W : Nat) (empty : Nat) (init : List Nat) (h : Heap) :
    Option (Tape × Heap) :=
  let (curr, h1) := cells_from_slice W init empty h
  match curr.focus h1 with
  | none => none
  | some (head, curr') =>
    let empty_buff := List.replicate W empty
    let cache := Cache.new
      (match head.read h1 with
       | some x => x
       | none => empty_buff)
      empty_buff
    some ({ cache := cache, empty := empty, focus := head,
            left := empty_cell, right := curr' }, h1)

/-- `Tape::read`: delegates to the cache. -/
def Tape.read (t : Tape) : Nat :=
  t.cache.read

/-- `Tape::write`: delegates to the cache; returns the old symbol. -/
def Tape.write (t : Tape) (symb : Nat) : Nat × Tape :=
  let (old, c') := t.cache.write symb
  (old, { t with cache := c' })

/-- `Tape::tape_shift`: rotate the `(left, focus, right)` triple one cell
along the direction, using the cell-chain focus/shift primitives. -/
def Tape.tape_shift (t : Tape) (direction : Side) (h : Heap) :
    Option (Tape × Heap) :=
  match direction with
  | Side.Left =>
    match t.left.focus h with
    | none => none
    | some (ret, newLeft) =>
      let (right', h') := Cell.shiftCell t.right t.focus h
      some ({ t with left := newLeft, focus := ret, right := right' }, h')
  | Side.Right =>
    match t.right.focus h with
    | none => none
    | some (ret, newRight) =>
      let (left', h') := Cell.shiftCell t.left t.focus h
      some ({ t with right := newRight, focus := ret, left := left' }, h')

/-- `Tape::shift`: delegate to the cache; on a miss, read the neighbor
cell (blank-filled when `Empty`), slide the window with `shift_flush`,
write any displaced dirty buffer back to the opposite neighbor, then
rotate the triple. -/
def Tape.shift (t : Tape) (W : Nat) (direction : Movement) (h : Heap) :
    Option (Tape × Heap) :=
  let (res, c1) := t.cache.shift W direction
  let t1 := { t with cache := c1 }
  match res with
  | ShiftRet.Stay => some (t1, h)
  | ShiftRet.InCache dir => t1.tape_shift dir h
  | ShiftRet.OutCacheFail dir =>
    match dir with
    | Side.Left =>
      let buff := match t1.left.read h with
        | some x => x
        | none => List.replicate W t1.empty
      match t1.cache.shift_flush W direction buff with
      | none => none
      | some (ret, c2) =>
        let (right2, h2) := match ret with
          | some x => t1.right.write x h
          | none => (t1.right, h)
        ({ t1 with cache := c2, right := right2 }).tape_shift dir h2
    | Side.Right =>
      let buff := match t1.right.read h with
        | some x => x
        | none => List.replicate W t1.empty
      match t1.cache.shift_flush W direction buff with
      | none => none
      | some (ret, c2) =>
        let (left2, h2) := match ret with
          | some x => t1.left.write x h
          | none => (t1.left, h)
        ({ t1 with cache := c2, left := left2 }).tape_shift dir h2

/-- The assembly loop of `Tape::split`: each iteration pops one cell off
the end of each of the three reference lists and builds a child tape, so
the children are the reversed zip of those lists. -/
def Tape.assembleSplit (cache : Cache) (empty : Nat)
    (focs lefts rights : List Cell) : List Tape :=
  ((focs.zip (lefts.zip rights)).map
    (fun p => { cache := cache, empty := empty, focus := p.1,
                left := p.2.1, right := p.2.2 })).reverse

/-- `Tape::split`: flush both dirty cache halves to their cells
(`flush_other` writing to the side it names), then hand out `branches`
`make_refs` copies of the triple, each child keeping a copy of the
cache value. -/
def Tape.split (t : Tape) (branches : Nat) (h : Heap) : List Tape × Heap :=
  let (focus1, h1) :=
    match t.cache.flush_current with
    | some x => t.focus.write x h
    | none => (t.focus, h)
  let (left1, right1, h2) :=
    match t.cache.flush_other with
    | (Side.Left, some x) =>
      let (l, h') := t.left.write x h1
      (l, t.right, h')
    | (Side.Right, some x) =>
      let (r, h') := t.right.write x h1
      (t.left, r, h')
    | (_, none) => (t.left, t.right, h1)
  let foc_refs := focus1.make_refs branches
  let left_refs := left1.make_refs branches
  let right_refs := right1.make_refs branches
  (Tape.assembleSplit t.cache t.empty foc_refs left_refs right_refs, h2)

/-- Association-list lookup, standing in for `BTreeMap::get`. -/
def lookupA {κ α : Type} [DecidableEq κ] : List (κ × α) → κ → Option α
  | [], _ => none
  | (k, v) :: rest, key => if key = k then some v else lookupA rest key

/-- `BTreeMap::entry(key).and_modify(f).or_insert(dflt)`. -/
def modifyOrInsert {κ α : Type} [DecidableEq κ]
    (m : List (κ × α)) (key : κ) (f : α → α) (dflt : α) : List (κ × α) :=
  match m with
  | [] => [(key, dflt)]
  | (k, v) :: rest =>
    if key = k then (k, f v) :: rest else (k, v) :: modifyOrInsert rest key f dflt

/-- `BTreeMap::entry(key).or_insert(dflt)`. -/
def orInsert {κ α : Type} [DecidableEq κ] (m : List (κ × α)) (key : κ) (dflt : α) :
    List (κ × α) :=
  modifyOrInsert m key (fun v => v) dflt

/-- `BTreeSet` insertion (only membership is relevant downstream). -/
def setInsert (l : List Nat) (x : Nat) : List Nat :=
  if x ∈ l then l else l ++ [x]

/-- A transition of the machine (`rules::Transition`). -/
structure Transition where
  state : Nat
  symb : Nat
  dir : Movement
deriving DecidableEq, Repr

/-- Rule-table answer for a `(state, symbol)` key (`rules::Output`). -/
inductive Output
  | None
  | Simple (t : Transition)
  | Multi (ts : List Transition)
deriving DecidableEq, Repr

/-- The transition table (`rules::RuleStore`): rules keyed by
`(state, symbol)`, the reverse adjacency `states_backtrace`, the
precomputed distances `states_dist`, and the final-state set `fin_s`. -/
structure RuleStore where
  rules : List ((Nat × Nat) × Output)
  states_backtrace : List (Nat × List Nat)
  states_dist : List (Nat × Nat)
  fin_s : List Nat
deriving DecidableEq, Repr

/-- `RuleStore::new`. -/
def RuleStore.new : RuleStore :=
  { rules := [], states_backtrace := [], states_dist := [], fin_s := [] }

/-- `RuleStore::add_rule`: extend the output for `(state_in, symb_in)`
(absent key gets `Simple`, a `Simple` becomes a two-element `Multi`, a
`Multi` is appended to), and record `state_in` as a predecessor of
`state_out`. -/
def RuleStore.add_rule (rs : RuleStore) (state_in symb_in symb_out state_out : Nat)
    (dir : Movement) : RuleStore :=
  let new_t : Transition := { state := state_out, symb := symb_out, dir := dir }
  { rs with
    rules := modifyOrInsert rs.rules (state_in, symb_in)
      (fun e =>
        match e with
        | Output.None => Output.Simple new_t
        | Output.Simple tr => Output.Multi [tr, new_t]
        | Output.Multi v => Output.Multi (v ++ [new_t]))
      (Output.Simple new_t)
    states_backtrace := modifyOrInsert rs.states_backtrace state_out
      (fun v => v ++ [state_in]) [state_in] }

/-- `RuleStore::get`: a copy of the stored output, `Output.None` when the
key is absent. -/
def RuleStore.get (rs : RuleStore) (state_in symb_in : Nat) : Output :=
  (lookupA rs.rules (state_in, symb_in)).getD Output.None

/-- `RuleStore::add_final`. -/
def RuleStore.add_final (rs : RuleStore) (final_state : Nat) : RuleStore :=
  { rs with fin_s := setInsert rs.fin_s final_state }

/-- `RuleStore::is_final`. -/
def RuleStore.is_final (rs : RuleStore) (state : Nat) : Bool :=
  rs.fin_s.contains state

/-- `self.states_backtrace.get(&i).unwrap_or(&vec![])` from
`compute_dist`. -/
def RuleStore.backtraceGet (rs : RuleStore) (i : Nat) : List Nat :=
  (lookupA rs.states_backtrace i).getD []

/-- The `while !queue.is_empty()` loop of `RuleStore::compute_dist`: each
layer records `dist` for the still-unassigned frontier states and builds
the next frontier from their predecessors.  `fuel` bounds the number of
layers; `none` models the loop not having terminated within `fuel`
(the source loop runs forever when the frontier never empties). -/
def RuleStore.computeDistLoop (rs : RuleStore) :
    Nat → List Nat → Nat → List (Nat × Nat) → Option (List (Nat × Nat))
  | 0, queue, _, m => if queue.isEmpty then some m else none
  | Nat.succ fuel, queue, dist, m =>
    if queue.isEmpty then some m
    else
      let m' := queue.foldl (fun acc i => orInsert acc i dist) m
      let next := queue.foldl
        (fun nq i => (rs.backtraceGet i).foldl setInsert nq) []
      rs.computeDistLoop fuel next (dist + 1) m'

/-- `RuleStore::compute_dist`: reverse BFS from the final states through
`states_backtrace`, starting at distance 0. -/
def RuleStore.compute_dist (rs : RuleStore) (fuel : Nat) : Option RuleStore :=
  match rs.computeDistLoop fuel rs.fin_s 0 rs.states_dist with
  | some m => some { rs with states_dist := m }
  | none => none

/-- `RuleStore::distance`: the precomputed distance for the state.  The
source unwraps the map entry, so an absent distance is a panic, modelled
by `none`. -/
def RuleStore.distance (rs : RuleStore) (state : Nat) : Option Nat :=
  lookupA rs.states_dist state

/-- One branch of the exploration (`machine::TM`). -/
structure TM where
  depth : Nat
  idx : Nat
  tape : Tape
  state : Nat
  distance : Nat
  instr_cache : Option Transition
deriving DecidableEq, Repr

/-- `TM::new`. -/
def TM.new (tape : Tape) (state : Nat) (rule : Option Transition)
    (id : Nat) (depth : Nat) (dist : Nat) : TM :=
  { idx := id, tape := tape, state := state, instr_cache := rule,
    depth := depth, distance := dist }

/-- Result of one branch step (`machine::TMStepRes`). -/
inductive TMStepRes
  | Success
  | Failure
  | Split (ts : List Transition)
  | Recognized
deriving DecidableEq, Repr

/-- The `if let Some(trs) = self.instr_cache.take()` body of `TM::step`:
apply the cached transition (bump depth, move to its state, refresh the
distance, write its symbol, shift its direction) and report `Recognized`
when the new state is final.  `none` models the panics inside
`distance` and `shift`. -/
def TM.applyCached (m : TM) (trs : Transition) (rules : RuleStore) (W : Nat)
    (h : Heap) : Option (TMStepRes × TM × Heap) :=
  match rules.distance trs.state with
  | none => none
  | some dist =>
    let (_, tape1) := m.tape.write trs.symb
    match tape1.shift W trs.dir h with
    | none => none
    | some (tape2, h') =>
      let m' : TM :=
        { m with
          instr_cache := Option.none
          depth := m.depth + 1
          state := trs.state
          distance := dist
          tape := tape2 }
      if rules.is_final trs.state then some (TMStepRes.Recognized, m', h')
      else some (TMStepRes.Success, m', h')

/-- `TM::step`: apply the pending transition when present; otherwise
consult the rule table, a `Simple` answer being cached and immediately
re-applied (the source's tail re-entry into `step`). -/
def TM.step (m : TM) (rules : RuleStore) (W : Nat) (h : Heap) :
    Option (TMStepRes × TM × Heap) :=
  match m.instr_cache with
  | some trs => m.applyCached trs rules W h
  | none =>
    match rules.get m.state m.tape.read with
    | Output.None => some (TMStepRes.Failure, m, h)
    | Output.Simple trs =>
      ({ m with instr_cache := some trs }).applyCached trs rules W h
    | Output.Multi trs => some (TMStepRes.Split trs, m, h)

/-- `TM::split`: consume the branch into `(state, depth, tapes)`;
`none` models the panic on a branch with a pending transition. -/
def TM.split (m : TM) (num : Nat) (h : Heap) :
    Option ((Nat × Nat × List Tape) × Heap) :=
  if m.instr_cache.isSome then none
  else
    let (tapes, h') := m.tape.split num h
    some ((m.state, m.depth, tapes), h')

/-- The `Ord` implementation on branches: a pending cached transition
ranks greatest; otherwise the smaller `distance + depth` ranks
greater. -/
def TM.cmp (a b : TM) : Ordering :=
  let min_s := a.distance + a.depth
  let min_o := b.distance + b.depth
  let s_some := a.instr_cache.isSome
  let o_some := b.instr_cache.isSome
  if s_some && o_some then Ordering.eq
  else if s_some then Ordering.gt
  else if o_some then Ordering.lt
  else if min_s = min_o then Ordering.eq
  else if min_s < min_o then Ordering.gt
  else Ordering.lt

/-- The scheduler's frontier (`machine::MachineStore`, a
`BinaryHeap<TM>`), modelled as the list of queued branches in insertion
order. -/
structure MachineStore where
  heap : List TM
deriving DecidableEq, Repr

/-- `MachineStore::new`. -/
def MachineStore.new : MachineStore := { heap := [] }

/-- `MachineStore::push`. -/
def MachineStore.push (s : MachineStore) (machine : TM) : MachineStore :=
  { heap := s.heap ++ [machine] }

/-- Extraction of a greatest element under `TM.cmp`: `BinaryHeap::pop`
returns a maximal element of the queue (ties broken arbitrarily by the
heap; this model takes the earliest maximal one). -/
def popMaxAux : List TM → Option (TM × List TM)
  | [] => none
  | x :: xs =>
    match popMaxAux xs with
    | none => some (x, [])
    | some (m, rest) =>
      if TM.cmp x m = Ordering.lt then some (m, x :: rest) else some (x, xs)

/-- `MachineStore::pop`. -/
def MachineStore.pop (s : MachineStore) : Option (TM × MachineStore) :=
  match popMaxAux s.heap with
  | none => none
  | some (m, rest) => some (m, { heap := rest })

/-- Scheduler step outcome (`machine::StepResult`). -/
inductive StepResult
  | Undecided (machine : Nat)
  | DetStep (machine : Nat)
  | Split (source : Nat) (new : List Nat)
  | BranchFail (machine : Nat)
  | Success (machine : Nat)
  | FailAll
deriving DecidableEq, Repr

/-- The scheduler (`machine::NDTM`); the rule store, a borrowed
reference in the source, is passed to each operation. -/
structure NDTM where
  machines : MachineStore
  last_idx : Nat
  some_undecided : Bool
  max_step : Nat
deriving DecidableEq, Repr

/-- `NDTM::new`: seed with one branch at state 0, depth 0, no pending
transition.  `none` models the panic inside `rules.distance(0)`. -/
def NDTM.new (tape : Tape) (rules : RuleStore) (max : Nat) : Option NDTM :=
  match rules.distance 0 with
  | none => none
  | some d =>
    let first := TM.new tape 0 none 0 0 d
    some { machines := MachineStore.new.push first, last_idx := 0,
           some_undecided := false, max_step := max }

/-- The child-creation loop of the `Split` arm of `NDTM::step`: walk the
tape list, each iteration bumping the identifier counter and popping a
transition off the END of the transition list (`trs.pop()`).  Returns
the children in creation order, their identifiers, and the final
counter; `none` models the two arity-mismatch panics. -/
def spawnLoop (state depth dist : Nat) :
    List Tape → List Transition → Nat → Option (List TM × List Nat × Nat)
  | [], trs, idx => if trs.isEmpty then some ([], [], idx) else none
  | tape :: rest, trs, idx =>
    match trs.getLast? with
    | none => none
    | some tr =>
      let idx' := idx + 1
      let tm := TM.new tape state (some tr) idx' depth dist
      match spawnLoop state depth dist rest trs.dropLast idx' with
      | none => none
      | some (tms, ids, fi) => some (tm :: tms, idx' :: ids, fi)

/-- `NDTM::step`: pop the best branch; report `FailAll` on an empty
frontier and `Undecided` past the step budget; otherwise run one branch
step, re-queuing on `Success` and spawning children on `Split`. -/
def NDTM.step (n : NDTM) (rules : RuleStore) (W : Nat) (h : Heap) :
    Option (StepResult × NDTM × Heap) :=
  match n.machines.pop with
  | none => some (StepResult.FailAll, n, h)
  | some (machine, rest) =>
    let id := machine.idx
    if machine.depth ≥ n.max_step then
      some (StepResult.Undecided id,
        { n with machines := rest, some_undecided := true }, h)
    else
      match machine.step rules W h with
      | none => none
      | some (TMStepRes.Success, m', h') =>
        some (StepResult.DetStep id, { n with machines := rest.push m' }, h')
      | some (TMStepRes.Failure, _, h') =>
        some (StepResult.BranchFail id, { n with machines := rest }, h')
      | some (TMStepRes.Recognized, _, h') =>
        some (StepResult.Success id, { n with machines := rest }, h')
      | some (TMStepRes.Split trs, m', h') =>
        match m'.split trs.length h' with
        | none => none
        | some ((state, depth, tapes), h2) =>
          match rules.distance state with
          | none => none
          | some dist =>
            match spawnLoop state depth dist tapes trs n.last_idx with
            | none => none
            | some (tms, ids, fi) =>
              some (StepResult.Split id ids,
                { n with machines := tms.foldl (fun s tm => s.push tm) rest,
                         last_idx := fi }, h2)

/-- The `loop` of `NDTM::fastforward`, with explicit fuel (`none` on
fuel exhaustion models the loop still running).  `count` mirrors the
source's local `count`, which is initialized to 0 and never
incremented. -/
def NDTM.fastforwardLoop (rules : RuleStore) (W : Nat) (steps : Option Nat)
    (count : Nat) :
    Nat → NDTM → Heap → List StepResult → Option (List StepResult × NDTM × Heap)
  | 0, _, _, _ => none
  | Nat.succ fuel, n, h, vec =>
    if (match steps with
        | some m => decide (count ≥ m)
        | none => false) then
      some (vec, n, h)
    else
      match n.step rules W h with
      | none => none
      | some (StepResult.Success machine, n', h') =>
        some (vec ++ [StepResult.Success machine], n', h')
      | some (StepResult.FailAll, n', h') =>
        some (vec ++ [StepResult.FailAll], n', h')
      | some (r, n', h') =>
        NDTM.fastforwardLoop rules W steps count fuel n' h' (vec ++ [r])

/-- `NDTM::fastforward`: repeat `step` until `Success`, `FailAll`, or
the caller limit (as the source checks it) stops the loop. -/
def NDTM.fastforward (n : NDTM) (rules : RuleStore) (W : Nat)
    (steps : Option Nat) (fuel : Nat) (h : Heap) :
    Option (List StepResult × NDTM × Heap) :=
  NDTM.fastforwardLoop rules W steps 0 fuel n h []

/-! Auxiliary notions used to state the claims, and concrete fixtures
for witnesses. -/

/-- The direction opposite to a movement. -/
def Movement.opposite : Movement → Movement
  | Movement.Left => Movement.Right
  | Movement.Right => Movement.Left
  | Movement.Stay => Movement.Stay

/-- A link that can be focused over the heap: not the transient `NoneL`
sentinel, and its target index (if any) allocated. -/
def linkOk (l : Link) (h : Heap) : Bool :=
  match l with
  | Link.Edge => true
  | Link.Same rc => rc < h.cells.length
  | Link.Uncle rc => rc < h.cells.length
  | Link.NoneL => false

/-- A cell whose buffer (if any) shares with another branch: writes to
it must reallocate rather than mutate.  `make_refs` only produces such
cells. -/
def cellShared : Cell → Bool
  | Cell.Full _ _ => false
  | Cell.Ghost _ _ => true
  | Cell.Empty _ => true

/-- A cell whose buffer index (if any) is allocated on the heap. -/
def cellBufOk (c : Cell) (h : Heap) : Bool :=
  match c with
  | Cell.Full b _ => b < h.bufs.length
  | Cell.Ghost b _ => b < h.bufs.length
  | Cell.Empty _ => true

/-- One line of a rule file under the `tr` header: the arguments of one
`add_rule` call made by the driver. -/
structure RuleLine where
  state_in : Nat
  symb_in : Nat
  symb_out : Nat
  state_out : Nat
  dir : Movement
deriving DecidableEq, Repr

/-- Feed a list of rule lines to the store, as the driver's parse loop
does. -/
def addRules (rs : RuleStore) (ls : List RuleLine) : RuleStore :=
  ls.foldl (fun acc l => acc.add_rule l.state_in l.symb_in l.symb_out l.state_out l.dir) rs

/-- Feed a list of final states to the store. -/
def addFinals (rs : RuleStore) (fs : List Nat) : RuleStore :=
  fs.foldl (fun acc f => acc.add_final f) rs

/-- The store built from a parsed rule file. -/
def mkStore (ls : List RuleLine) (fs : List Nat) : RuleStore :=
  addFinals (addRules RuleStore.new ls) fs

/-- The transition graph of a rule list: an edge from `s` to `t` for
every rule consuming state `s` and producing state `t`. -/
def EdgeL (ls : List RuleLine) (s t : Nat) : Prop :=
  ∃ l ∈ ls, l.state_in = s ∧ l.state_out = t

/-- `ReachesIn ls fs d s`: some sequence of exactly `d` transitions
leads from state `s` to a final state. -/
def ReachesIn (ls : List RuleLine) (fs : List Nat) : Nat → Nat → Prop
  | 0, s => s ∈ fs
  | Nat.succ d, s => ∃ t, EdgeL ls s t ∧ ReachesIn ls fs d t

/-- Placeholder tape used only as a default when unwrapping options on
concrete fixtures (all fixture computations are shown to succeed). -/
def dfltTape : Tape :=
  { cache := Cache.new [] [], empty := 0, focus := empty_cell,
    left := empty_cell, right := empty_cell }

/-- Placeholder scheduler, in the same role as `dfltTape`. -/
def dfltNDTM : NDTM :=
  { machines := MachineStore.new, last_idx := 0, some_undecided := false,
    max_step := 0 }

/-- The empty heap every run starts from. -/
def exHeap0 : Heap := { cells := [], bufs := [] }

/-- Fixture rule file: `0 a a R 1 / 1 a a S 2`, accepting state 2
(a deterministic two-step accepter for `aa`). -/
def exLines : List RuleLine :=
  [{ state_in := 0, symb_in := 97, symb_out := 97, state_out := 1, dir := Movement.Right },
   { state_in := 1, symb_in := 97, symb_out := 97, state_out := 2, dir := Movement.Stay }]

/-- The fixture store with distances computed. -/
def exRulesD : RuleStore :=
  ((mkStore exLines [2]).compute_dist 10).getD RuleStore.new

/-- Fixture nondeterministic rule file: two rules for `(0, a)` writing
different symbols, accepting state 1. -/
def exLinesN : List RuleLine :=
  [{ state_in := 0, symb_in := 97, symb_out := 97, state_out := 1, dir := Movement.Right },
   { state_in := 0, symb_in := 97, symb_out := 98, state_out := 1, dir := Movement.Right }]

/-- The nondeterministic fixture store with distances computed. -/
def exRulesND : RuleStore :=
  ((mkStore exLinesN [1]).compute_dist 10).getD RuleStore.new

/-- Fixture tape over the input `aa` with cell width 5, and the heap it
lives on. -/
def exCreated : Tape × Heap :=
  (Tape.create 5 95 [97, 97] exHeap0).getD (dfltTape, exHeap0)

/-- The fixture tape. -/
def exTape : Tape := exCreated.1

/-- The fixture heap. -/
def exHeap : Heap := exCreated.2

/-- Fixture scheduler over the deterministic store. -/
def exNDTM : NDTM := (NDTM.new exTape exRulesD 10).getD dfltNDTM

/-- Fixture scheduler over the nondeterministic store. -/
def exNDTMN : NDTM := (NDTM.new exTape exRulesND 10).getD dfltNDTM

/-- The branch the nondeterministic fixture scheduler is seeded with
(state 0 has distance 1 in `exRulesND`). -/
def exTMseedN : TM := TM.new exTape 0 none 0 0 1

/-- Fixture split of the fixture tape into two siblings. -/
def exSplit : List Tape × Heap := exTape.split 2 exHeap

/-- First sibling of the fixture split. -/
def exChild0 : Tape := exSplit.1.getD 0 dfltTape

/-- Second sibling of the fixture split. -/
def exChild1 : Tape := exSplit.1.getD 1 dfltTape

/-- The first sibling writes symbol 90 and then flushes its cache to its
cells (the flush a split performs). -/
def exGrand : List Tape × Heap := ((exChild0.write 90).2).split 1 exSplit.2

/-- Fixture branch with a pending cached transition (depth+distance 12). -/
def exTMpending : TM :=
  TM.new dfltTape 0 (some { state := 1, symb := 97, dir := Movement.Right }) 1 5 7

/-- Fixture branch without a pending transition (depth+distance 0). -/
def exTMplain : TM := TM.new dfltTape 0 none 2 0 0

/-- Fixture frontier holding one plain and one pending branch. -/
def exStore : MachineStore := { heap := [exTMplain, exTMpending] }

/-! Theorems. -/

/-- `Cache::write` hands back exactly the symbol a `read` would have
returned. -/
theorem Cache.write_fst (c : Cache) (symb : Nat) :
    (c.write symb).1 = c.read := by
  cases hc : c.current <;> simp [Cache.write, Cache.read, hc]

/-- C2: on a cache whose active side is `Right` with the left dirty flag
set, `flush_other` names the left half but hands back the right half's
buffer — not the left one the claim requires. -/
theorem flush_other_returns_active_buffer_on_right :
    (Cache.mk [1, 1] [2, 2] 0 Side.Right (true, false)).flush_other
      = (Side.Left, some [2, 2]) ∧
    ([2, 2] : List Nat) ≠ [1, 1] := by
  decide

/-- C3: `distance` unwraps the map entry, so a state with no stored
distance is a panic (modelled `none`) rather than a sentinel value; in
particular seeding a scheduler over a store with no computed distances
already fails. -/
theorem distance_panics_on_missing_state :
    RuleStore.new.distance 0 = none ∧
    NDTM.new dfltTape RuleStore.new 10 = none := by
  decide

/-- C7: `Tape::split` copies the parent's cache by value without
resetting the dirty flags, so after a parent write both children start
with the active half still marked dirty instead of clean. -/
theorem split_children_inherit_dirty_flags :
    (((exTape.write 90).2.split 2 exHeap).1.map (fun c => c.cache.dirty))
      = [(false, true), (false, true)] ∧
    ((false, true) : Bool × Bool) ≠ (false, false) := by
  decide

/-- C5: the `count` local of `fastforward` is never incremented, so the
caller limit `Some(1)` does not stop the loop: on a two-step accepting
run the result vector has length 2 > 1. -/
theorem fastforward_ignores_caller_limit :
    (exNDTM.fastforward exRulesD 5 (some 1) 20 exHeap).map (fun r => r.1.length)
      = some 2 ∧
    ¬ (2 ≤ 1) := by
  decide

/-- C10: `Tape::read` and `Tape::write` act only on the cache: the
focus, left and right cells of the tape (and hence everything they read
from any heap) are untouched, the written symbol's old value is the
cache read, and only the cache component changes. -/
theorem write_touches_only_cache (t : Tape) (symb : Nat) (h : Heap) :
    (t.write symb).2.focus = t.focus ∧
    (t.write symb).2.left = t.left ∧
    (t.write symb).2.right = t.right ∧
    (t.write symb).2.empty = t.empty ∧
    Cell.read (t.write symb).2.focus h = Cell.read t.focus h ∧
    Cell.read (t.write symb).2.left h = Cell.read t.left h ∧
    Cell.read (t.write symb).2.right h = Cell.read t.right h ∧
    t.read = t.cache.read ∧
    (t.write symb).1 = t.cache.read ∧
    (t.write symb).2.cache = (t.cache.write symb).2 := by
  have hw : t.write symb = ((t.cache.write symb).1, { t with cache := (t.cache.write symb).2 }) := by
    simp [Tape.write]
  rw [hw]
  exact ⟨rfl, rfl, rfl, rfl, rfl, rfl, rfl, rfl, Cache.write_fst t.cache symb, rfl⟩

/-- When `TM.cmp` ranks `a` strictly below `b`: `a` has no pending
transition, while `b` has one or a smaller `distance + depth`. -/
theorem TM.cmp_lt_char (a b : TM) :
    TM.cmp a b = Ordering.lt ↔
      (a.instr_cache.isSome = false ∧
        (b.instr_cache.isSome = true ∨ b.distance + b.depth < a.distance + a.depth)) := by
  cases ha : a.instr_cache.isSome <;> cases hb : b.instr_cache.isSome <;>
    simp [TM.cmp, ha, hb] <;> omega

/-- A branch never ranks strictly below itself. -/
theorem TM.cmp_self_ne_lt (a : TM) : TM.cmp a a ≠ Ordering.lt := by
  intro h
  rw [TM.cmp_lt_char] at h
  rcases h with ⟨h1, h2 | h3⟩
  · rw [h1] at h2
    exact Bool.false_ne_true h2
  · omega

/-- `TM.cmp` is asymmetric on strict comparisons. -/
theorem TM.cmp_asymm {a b : TM} (hab : TM.cmp a b = Ordering.lt) :
    TM.cmp b a ≠ Ordering.lt := by
  intro hba
  rw [TM.cmp_lt_char] at hab hba
  rcases hab with ⟨ha, hb | hs⟩
  · rcases hba with ⟨hb', _⟩
    rw [hb] at hb'
    exact absurd hb' (by simp)
  · rcases hba with ⟨_, ha' | hs'⟩
    · rw [ha] at ha'
      exact Bool.false_ne_true ha'
    · omega

/-- Being ranked not-below is transitive for `TM.cmp`. -/
theorem TM.cmp_ge_trans {a b c : TM} (hab : TM.cmp a b ≠ Ordering.lt)
    (hbc : TM.cmp b c ≠ Ordering.lt) : TM.cmp a c ≠ Ordering.lt := by
  rw [Ne, TM.cmp_lt_char] at hab hbc
  rw [Ne, TM.cmp_lt_char]
  rintro ⟨ha, hc | hs⟩
  · cases hb : b.instr_cache.isSome
    · exact hbc ⟨hb, Or.inl hc⟩
    · exact hab ⟨ha, Or.inl hb⟩
  · cases hb : b.instr_cache.isSome
    · by_cases hsb : b.distance + b.depth < a.distance + a.depth
      · exact hab ⟨ha, Or.inr hsb⟩
      · exact hbc ⟨hb, Or.inr (by omega)⟩
    · exact hab ⟨ha, Or.inl hb⟩

/-- `popMaxAux` returns `none` only on the empty frontier. -/
theorem popMaxAux_eq_none {l : List TM} (h : popMaxAux l = none) : l = [] := by
  cases l with
  | nil => rfl
  | cons x xs =>
    exfalso
    rcases hp : popMaxAux xs with _ | ⟨m, rest⟩ <;> simp [popMaxAux, hp] at h
    split at h <;> simp at h

/-- The branch returned by `popMaxAux` is drawn from the frontier. -/
theorem popMaxAux_mem : ∀ {l : List TM} {m : TM} {rest : List TM},
    popMaxAux l = some (m, rest) → m ∈ l := by
  intro l
  induction l with
  | nil => intro m rest h; simp [popMaxAux] at h
  | cons x xs ih =>
    intro m rest h
    rcases hp : popMaxAux xs with _ | ⟨m', rest'⟩ <;> simp [popMaxAux, hp] at h
    · exact h.1 ▸ List.mem_cons_self x xs
    · split at h <;> rcases h with ⟨rfl, rfl⟩
      · exact List.mem_cons_of_mem x (ih hp)
      · exact List.mem_cons_self x xs

/-- The branch returned by `popMaxAux` ranks not-below every frontier
branch. -/
theorem popMaxAux_max : ∀ {l : List TM} {m : TM} {rest : List TM},
    popMaxAux l = some (m, rest) → ∀ x ∈ l, TM.cmp m x ≠ Ordering.lt := by
  intro l
  induction l with
  | nil => intro m rest h; simp [popMaxAux] at h
  | cons x xs ih =>
    intro m rest h y hy
    rcases hp : popMaxAux xs with _ | ⟨m', rest'⟩ <;> simp [popMaxAux, hp] at h
    · have hxs : xs = [] := popMaxAux_eq_none hp
      subst hxs
      rcases List.mem_singleton.mp hy with rfl
      exact h.1 ▸ TM.cmp_self_ne_lt y
    · by_cases hlt : TM.cmp x m' = Ordering.lt <;>
        simp only [hlt, if_true, if_false, Option.some.injEq, Prod.mk.injEq] at h <;>
        rcases h with ⟨rfl, rfl⟩
      · rcases List.mem_cons.mp hy with rfl | hy'
        · exact TM.cmp_asymm hlt
        · exact ih hp y hy'
      · rcases List.mem_cons.mp hy with rfl | hy'
        · exact TM.cmp_self_ne_lt y
        · exact TM.cmp_ge_trans hlt (ih hp y hy')

/-- C1: the branch popped from a frontier obeys the priority key: if any
queued branch has a pending cached transition the popped one has one,
and on a frontier with no pending transitions the popped branch has the
least `depth + distance`. -/
theorem pop_obeys_priority (s : MachineStore) (m : TM) (s' : MachineStore)
    (hpop : s.pop = some (m, s')) :
    ((∃ x ∈ s.heap, x.instr_cache.isSome = true) → m.instr_cache.isSome = true) ∧
    ((∀ x ∈ s.heap, x.instr_cache.isSome = false) →
      ∀ x ∈ s.heap, m.depth + m.distance ≤ x.depth + x.distance) := by
  rcases hp : popMaxAux s.heap with _ | ⟨m', rest⟩ <;>
    simp [MachineStore.pop, hp] at hpop
  · rcases hpop with ⟨rfl, _⟩
    constructor
    · rintro ⟨x, hx, hxp⟩
      have hmax := popMaxAux_max hp x hx
      cases hm : m'.instr_cache.isSome
      · exact absurd ((TM.cmp_lt_char m' x).mpr ⟨hm, Or.inl hxp⟩) hmax
      · rfl
    · intro hall x hx
      have hmax := popMaxAux_max hp x hx
      have hm : m'.instr_cache.isSome = false := hall m' (popMaxAux_mem hp)
      have hx' : x.instr_cache.isSome = false := hall x hx
      by_contra hlt
      exact hmax ((TM.cmp_lt_char m' x).mpr ⟨hm, Or.inr (by omega)⟩)

/-- C1 witness: on the fixture frontier the pending branch is popped
first, despite its larger `depth + distance`. -/
theorem pop_obeys_priority_witness :
    exStore.pop = some (exTMpending, { heap := [exTMplain] }) ∧
    exTMpending.instr_cache.isSome = true := by
  refine ⟨by decide, ?_⟩
  exact (pop_obeys_priority exStore exTMpending { heap := [exTMplain] } (by decide)).1
    ⟨exTMpending, by decide, by decide⟩

/-- `make_refs` hands out exactly the requested number of cells. -/
theorem Cell.make_refs_length (c : Cell) (n : Nat) : (c.make_refs n).length = n := by
  cases c <;> simp [Cell.make_refs]

/-- `assembleSplit` builds one tape per popped triple. -/
theorem Tape.assembleSplit_length (cache : Cache) (e : Nat)
    (focs lefts rights : List Cell) :
    (Tape.assembleSplit cache e focs lefts rights).length
      = min focs.length (min lefts.length rights.length) := by
  simp [Tape.assembleSplit]

/-- `Tape::split` returns exactly `branches` child tapes. -/
theorem Tape.split_fst_length (t : Tape) (n : Nat) (h : Heap) :
    (t.split n h).1.length = n := by
  rcases hfc : t.cache.flush_current with _ | x <;>
    rcases hfo : t.cache.flush_other with ⟨side, ox⟩ <;>
    cases side <;> rcases ox with _ | y <;>
    simp [Tape.split, hfc, hfo, Tape.assembleSplit_length, Cell.make_refs_length]

/-- What the child-creation loop produces when tapes and transitions
match up: children in creation order, the `i`-th child carrying the
`(length − 1 − i)`-th transition and identifier `idx + 1 + i`. -/
theorem spawnLoop_spec (state depth dist : Nat) :
    ∀ (tapes : List Tape) (trs : List Transition) (idx : Nat),
      tapes.length = trs.length →
      ∃ tms ids,
        spawnLoop state depth dist tapes trs idx
          = some (tms, ids, idx + tapes.length) ∧
        tms.length = tapes.length ∧ ids.length = tapes.length ∧
        ∀ i, i < tapes.length →
          ∃ tm, tms[i]? = some tm ∧
            tm.instr_cache = trs[trs.length - 1 - i]? ∧
            tm.idx = idx + 1 + i ∧
            tm.state = state ∧ tm.depth = depth ∧ tm.distance = dist ∧
            ids[i]? = some (idx + 1 + i) ∧
            tapes[i]? = some tm.tape := by
  intro tapes
  induction tapes with
  | nil =>
    intro trs idx hlen
    have htrs : trs = [] := List.eq_nil_of_length_eq_zero hlen.symm
    subst htrs
    exact ⟨[], [], by simp [spawnLoop], rfl, rfl, by intro i hi; simp at hi⟩
  | cons tape rest ih =>
    intro trs idx hlen
    have htrs : trs ≠ [] := by
      intro hc
      rw [hc] at hlen
      simp at hlen
    have hlast : trs.getLast? = trs[trs.length - 1]? := List.getLast?_eq_getElem? trs
    have hlt : trs.length - 1 < trs.length := by
      have := List.length_pos.mpr htrs
      omega
    rcases List.getElem?_eq_some_iff.mpr ⟨hlt, rfl⟩ with hget
    obtain ⟨tr, htr⟩ : ∃ tr, trs.getLast? = some tr := by
      rw [hlast]
      exact ⟨trs[trs.length - 1], hget⟩
    have hdl : trs.dropLast.length = rest.length := by
      rw [List.length_dropLast]
      simp at hlen
      omega
    obtain ⟨tms', ids', hrec, hlen1, hlen2, hidx⟩ :=
      ih trs.dropLast (idx + 1) hdl.symm
    refine ⟨TM.new tape state (some tr) (idx + 1) depth dist :: tms',
      (idx + 1) :: ids', ?_, by simp [hlen1], by simp [hlen2], ?_⟩
    · have harith : idx + 1 + rest.length = idx + (rest.length + 1) := by omega
      simp only [spawnLoop, htr, hrec, List.length_cons, harith]
    · intro i hi
      cases i with
      | zero =>
        refine ⟨TM.new tape state (some tr) (idx + 1) depth dist,
          by simp, ?_, rfl, rfl, rfl, rfl, by simp, by simp [TM.new]⟩
        show some tr = trs[trs.length - 1 - 0]?
        rw [← htr, hlast]
        simp
      | succ j =>
        have hj : j < rest.length := by
          simp at hi
          omega
        have hlen' : trs.length = rest.length + 1 := by
          simp at hlen
          omega
        obtain ⟨tm, h1, h2, h3, h4, h5, h6, h7, h8⟩ := hidx j hj
        refine ⟨tm, by simpa using h1, ?_, ?_, h4, h5, h6, ?_, by simpa using h8⟩
        · rw [h2, hdl]
          have hk : rest.length - 1 - j < trs.length - 1 := by omega
          rw [List.dropLast_eq_take, List.getElem?_take_of_lt hk]
          congr 1
          omega
        · rw [h3]
          omega
        · simp only [List.getElem?_cons_succ]
          rw [h7]
          congr 1
          omega

/-- Pushing a list of branches one by one appends them in order. -/
theorem MachineStore.foldl_push (tms : List TM) :
    ∀ (s : MachineStore),
      tms.foldl (fun acc tm => acc.push tm) s = { heap := s.heap ++ tms } := by
  induction tms with
  | nil => intro s; simp
  | cons tm rest ih =>
    intro s
    rw [List.foldl_cons, ih]
    simp [MachineStore.push]

/-- C4 (amended): on a `Multi(ts)` rule the scheduler's step creates one
child per transition and pushes them in REVERSE list order: the `i`-th
child pushed (and the `i`-th fresh identifier in `Split.new`) carries
`ts[n − 1 − i]`, because the loop pops transitions off the end of the
list. -/
theorem step_split_children_reverse (rules : RuleStore) (W : Nat) (n : NDTM)
    (h : Heap) (machine : TM) (rest : MachineStore) (trs : List Transition)
    (dist : Nat)
    (hpop : n.machines.pop = some (machine, rest))
    (hdepth : ¬ machine.depth ≥ n.max_step)
    (hcache : machine.instr_cache = none)
    (hget : rules.get machine.state machine.tape.read = Output.Multi trs)
    (hdist : rules.distance machine.state = some dist) :
    ∃ tms ids h2,
      n.step rules W h = some (StepResult.Split machine.idx ids,
        { n with machines := { heap := rest.heap ++ tms },
                 last_idx := n.last_idx + trs.length }, h2) ∧
      tms.length = trs.length ∧ ids.length = trs.length ∧
      ∀ i, i < trs.length →
        ∃ tm, tms[i]? = some tm ∧
          tm.instr_cache = trs[trs.length - 1 - i]? ∧
          tm.idx = n.last_idx + 1 + i ∧
          tm.state = machine.state ∧ tm.depth = machine.depth ∧
          tm.distance = dist ∧
          ids[i]? = some (n.last_idx + 1 + i) := by
  obtain ⟨tapes, h2, hsplit⟩ : ∃ tapes h2,
      machine.tape.split trs.length h = (tapes, h2) :=
    ⟨(machine.tape.split trs.length h).1, (machine.tape.split trs.length h).2, rfl⟩
  have hlen : tapes.length = trs.length := by
    have hl := Tape.split_fst_length machine.tape trs.length h
    rw [hsplit] at hl
    exact hl
  obtain ⟨tms, ids, hspawn, hlen1, hlen2, hidx⟩ :=
    spawnLoop_spec machine.state machine.depth dist tapes trs n.last_idx hlen
  have hstep : machine.step rules W h = some (TMStepRes.Split trs, machine, h) := by
    simp only [TM.step, hcache, hget]
  have hsplitm : machine.split trs.length h
      = some ((machine.state, machine.depth, tapes), h2) := by
    simp only [TM.split, hcache, Option.isSome_none, Bool.false_eq_true,
      if_false, hsplit]
  rw [hlen] at hspawn hlen1 hlen2 hidx
  refine ⟨tms, ids, h2, ?_, hlen1, hlen2, ?_⟩
  · simp only [NDTM.step, hpop, if_neg hdepth, hstep, hsplitm, hdist, hspawn,
      MachineStore.foldl_push]
  · intro i hi
    obtain ⟨tm, h1, h2', h3, h4, h5, h6, h7, _⟩ := hidx i hi
    exact ⟨tm, h1, h2', h3, h4, h5, h6, h7⟩

/-- C4 counterexample: with `ts = [(1,a,R), (1,b,R)]` for `(0,a)`, the
first child pushed (identifier 1, first in `Split.new`) carries
`ts[1]` — the symbol-`b` transition — not `ts[0]` as claimed. -/
theorem step_split_first_child_not_first_transition :
    exRulesND.get 0 97 = Output.Multi
      [{ state := 1, symb := 97, dir := Movement.Right },
       { state := 1, symb := 98, dir := Movement.Right }] ∧
    (exNDTMN.step exRulesND 5 exHeap).map
      (fun r => (r.1, r.2.1.machines.heap.map (fun m => (m.idx, m.instr_cache))))
      = some (StepResult.Split 0 [1, 2],
        [(1, some { state := 1, symb := 98, dir := Movement.Right }),
         (2, some { state := 1, symb := 97, dir := Movement.Right })]) ∧
    ({ state := 1, symb := 98, dir := Movement.Right } : Transition)
      ≠ { state := 1, symb := 97, dir := Movement.Right } := by
  decide

/-- C4 witness: the amended theorem applied to the nondeterministic
fixture. -/
theorem step_split_children_reverse_witness :
    (exNDTMN.machines.pop = some (exTMseedN,
      { heap := [] })) ∧
    (∃ tms ids h2,
      exNDTMN.step exRulesND 5 exHeap
        = some (StepResult.Split (exTMseedN).idx ids,
          { exNDTMN with machines := { heap := [] ++ tms },
                         last_idx := exNDTMN.last_idx + 2 }, h2) ∧
      tms.length = 2 ∧ ids.length = 2 ∧
      ∀ i, i < 2 →
        ∃ tm, tms[i]? = some tm ∧
          tm.instr_cache =
            [{ state := 1, symb := 97, dir := Movement.Right },
             { state := 1, symb := 98, dir := Movement.Right }][2 - 1 - i]? ∧
          tm.idx = exNDTMN.last_idx + 1 + i ∧
          tm.state = (exTMseedN).state ∧
          tm.depth = (exTMseedN).depth ∧
          tm.distance = 1 ∧
          ids[i]? = some (exNDTMN.last_idx + 1 + i)) := by
  refine ⟨by decide, ?_⟩
  have := step_split_children_reverse exRulesND 5 exNDTMN exHeap
    exTMseedN { heap := [] }
    [{ state := 1, symb := 97, dir := Movement.Right },
     { state := 1, symb := 98, dir := Movement.Right }] 1
    (by decide) (by decide) (by decide) (by decide) (by decide)
  simpa using this

/-- Every cell handed out by `make_refs` is a shared (`Ghost`/`Empty`)
cell. -/
theorem Cell.mem_make_refs_shared {c c' : Cell} {n : Nat}
    (hm : c' ∈ c.make_refs n) : cellShared c' = true := by
  cases c <;> simp [Cell.make_refs, List.mem_replicate] at hm <;>
    simp [hm.2, cellShared]

/-- Every child tape of a split has shared focus, left and right
cells. -/
theorem Tape.split_child_shared {t : Tape} {n : Nat} {h : Heap} {c : Tape}
    (hc : c ∈ (t.split n h).1) :
    cellShared c.focus = true ∧ cellShared c.left = true ∧
      cellShared c.right = true := by
  rcases hfc : t.cache.flush_current with _ | x <;>
    rcases hfo : t.cache.flush_other with ⟨side, ox⟩ <;>
    cases side <;> rcases ox with _ | y <;>
    · simp only [Tape.split, hfc, hfo, Tape.assembleSplit] at hc
      rw [List.mem_reverse] at hc
      obtain ⟨⟨f, l, r⟩, hp, rfl⟩ := List.mem_map.mp hc
      have h1 := List.of_mem_zip hp
      have h2 := List.of_mem_zip h1.2
      exact ⟨Cell.mem_make_refs_shared h1.1, Cell.mem_make_refs_shared h2.1,
        Cell.mem_make_refs_shared h2.2⟩

/-- Writing to a shared cell reallocates: the buffer store is only
appended to and the cell store untouched. -/
theorem Cell.write_shared_bufs {c : Cell} (hs : cellShared c = true)
    (b : List Nat) (h : Heap) :
    ((c.write b h).2).bufs = h.bufs ++ [b] ∧ ((c.write b h).2).cells = h.cells := by
  cases c <;> simp [cellShared] at hs <;> simp [Cell.write]

/-- `Tape::write` only changes the cache component. -/
theorem Tape.write_preserves_cells (t : Tape) (s : Nat) :
    (t.write s).2.focus = t.focus ∧ (t.write s).2.left = t.left ∧
      (t.write s).2.right = t.right ∧ (t.write s).2.cache = (t.cache.write s).2 := by
  have hw : t.write s
      = ((t.cache.write s).1, { t with cache := (t.cache.write s).2 }) := by
    simp [Tape.write]
  rw [hw]
  exact ⟨rfl, rfl, rfl, rfl⟩

/-- Splitting a tape whose three cells are all shared only appends to
the buffer store. -/
theorem Tape.split_shared_extends {t : Tape} (hf : cellShared t.focus = true)
    (hl : cellShared t.left = true) (hr : cellShared t.right = true)
    (n : Nat) (h : Heap) :
    ∃ extra, ((t.split n h).2).bufs = h.bufs ++ extra := by
  rcases hfc : t.cache.flush_current with _ | x <;>
    rcases hfo : t.cache.flush_other with ⟨side, ox⟩ <;>
    cases side <;> rcases ox with _ | y <;>
    simp only [Tape.split, hfc, hfo]
  · exact ⟨[], by simp⟩
  · exact ⟨[y], (Cell.write_shared_bufs hl y h).1⟩
  · exact ⟨[], by simp⟩
  · exact ⟨[y], (Cell.write_shared_bufs hr y h).1⟩
  · exact ⟨[x], (Cell.write_shared_bufs hf x h).1⟩
  · obtain ⟨hb, _⟩ := Cell.write_shared_bufs hf x h
    obtain ⟨hb2, _⟩ := Cell.write_shared_bufs hl y (t.focus.write x h).2
    exact ⟨[x] ++ [y], by rw [hb2, hb, List.append_assoc]⟩
  · exact ⟨[x], (Cell.write_shared_bufs hf x h).1⟩
  · obtain ⟨hb, _⟩ := Cell.write_shared_bufs hf x h
    obtain ⟨hb2, _⟩ := Cell.write_shared_bufs hr y (t.focus.write x h).2
    exact ⟨[x] ++ [y], by rw [hb2, hb, List.append_assoc]⟩

/-- `Cell::read` is insensitive to buffers allocated later. -/
theorem Cell.read_extend {c : Cell} {h1 h2 : Heap}
    (hb : cellBufOk c h1 = true) (he : ∃ extra, h2.bufs = h1.bufs ++ extra) :
    c.read h2 = c.read h1 := by
  obtain ⟨extra, hex⟩ := he
  cases c with
  | Full buf next =>
    simp [cellBufOk] at hb
    simp [Cell.read, hex, List.getD, List.getElem?_append_left hb]
  | Ghost buf next =>
    simp [cellBufOk] at hb
    simp [Cell.read, hex, List.getD, List.getElem?_append_left hb]
  | Empty next => simp [Cell.read]

/-- C6: after a split, one sibling writing at its cursor — and even
flushing that write down to its cells, as its own next split does —
leaves every symbol the other sibling can read unchanged: the sibling's
tape value (hence its cursor read) is untouched, and the heap reads of
its focus, left and right cells are identical before and after, because
the writer's cells are shared and a shared-cell write reallocates
instead of mutating. -/
theorem split_write_isolated (t : Tape) (n : Nat) (h : Heap) (s : Nat)
    (i j : Nat) (children : List Tape) (h1 : Heap) (ci cj : Tape)
    (hsplit : t.split n h = (children, h1))
    (hci : children[i]? = some ci) (hcj : children[j]? = some cj)
    (hne : i ≠ j)
    (hbf : cellBufOk cj.focus h1 = true)
    (hbl : cellBufOk cj.left h1 = true)
    (hbr : cellBufOk cj.right h1 = true)
    (grand : List Tape) (h2 : Heap)
    (hflush : ((ci.write s).2).split 1 h1 = (grand, h2)) :
    Cell.read cj.focus h2 = Cell.read cj.focus h1 ∧
    Cell.read cj.left h2 = Cell.read cj.left h1 ∧
    Cell.read cj.right h2 = Cell.read cj.right h1 := by
  have hmem : ci ∈ children := List.getElem?_mem hci
  have hmem' : ci ∈ (t.split n h).1 := by
    rw [hsplit]
    exact hmem
  obtain ⟨hsf, hsl, hsr⟩ := Tape.split_child_shared hmem'
  obtain ⟨hwf, hwl, hwr, _⟩ := Tape.write_preserves_cells ci s
  have hext : ∃ extra, (((ci.write s).2).split 1 h1).2.bufs = h1.bufs ++ extra :=
    Tape.split_shared_extends (hwf ▸ hsf) (hwl ▸ hsl) (hwr ▸ hsr) 1 h1
  rw [hflush] at hext
  exact ⟨Cell.read_extend hbf hext, Cell.read_extend hbl hext,
    Cell.read_extend hbr hext⟩

/-- C6 witness: the isolation theorem applied to the fixture split. -/
theorem split_write_isolated_witness :
    exTape.split 2 exHeap = (exSplit.1, exSplit.2) ∧
    exSplit.1[0]? = some exChild0 ∧ exSplit.1[1]? = some exChild1 ∧
    cellBufOk exChild1.focus exSplit.2 = true ∧
    ((exChild0.write 90).2).split 1 exSplit.2 = (exGrand.1, exGrand.2) ∧
    (Cell.read exChild1.focus exGrand.2 = Cell.read exChild1.focus exSplit.2 ∧
     Cell.read exChild1.left exGrand.2 = Cell.read exChild1.left exSplit.2 ∧
     Cell.read exChild1.right exGrand.2 = Cell.read exChild1.right exSplit.2) := by
  refine ⟨by decide, by decide, by decide, by decide, by decide, ?_⟩
  exact split_write_isolated exTape 2 exHeap 90 0 1 exSplit.1 exSplit.2
    exChild0 exChild1 (by decide) (by decide) (by decide) (by decide)
    (by decide) (by decide) (by decide) exGrand.1 exGrand.2 (by decide)

/-- Lookup after `and_modify`/`or_insert`. -/
theorem lookupA_modifyOrInsert {κ α : Type} [DecidableEq κ]
    (m : List (κ × α)) (k : κ) (f : α → α) (d : α) (key : κ) :
    lookupA (modifyOrInsert m k f d) key =
      if key = k then some ((lookupA m k).elim d f) else lookupA m key := by
  induction m with
  | nil => simp [modifyOrInsert, lookupA]
  | cons p rest ih =>
    obtain ⟨pk, pv⟩ := p
    by_cases hk : k = pk
    · subst hk
      by_cases hkey : key = k <;> simp [modifyOrInsert, lookupA, hkey]
    · by_cases hkey : key = pk
      · subst hkey
        simp [modifyOrInsert, lookupA, hk, Ne.symm hk]
      · simp [modifyOrInsert, lookupA, hk, hkey, ih]

/-- Lookup after `or_insert`. -/
theorem lookupA_orInsert {κ α : Type} [DecidableEq κ]
    (m : List (κ × α)) (k : κ) (d : α) (key : κ) :
    lookupA (orInsert m k d) key =
      if key = k then some ((lookupA m k).getD d) else lookupA m key := by
  rw [orInsert, lookupA_modifyOrInsert]
  cases lookupA m k <;> rfl

/-- Membership in a `setInsert`. -/
theorem mem_setInsert (l : List Nat) (y x : Nat) :
    x ∈ setInsert l y ↔ x ∈ l ∨ x = y := by
  by_cases hy : y ∈ l
  · simp only [setInsert, if_pos hy]
    constructor
    · exact Or.inl
    · rintro (hx | rfl)
      · exact hx
      · exact hy
  · simp [setInsert, if_neg hy]

/-- Membership after folding `setInsert` over a list. -/
theorem mem_foldl_setInsert (l : List Nat) :
    ∀ (acc : List Nat) (x : Nat),
      x ∈ l.foldl setInsert acc ↔ x ∈ acc ∨ x ∈ l := by
  induction l with
  | nil => intro acc x; simp
  | cons y rest ih =>
    intro acc x
    rw [List.foldl_cons, ih, mem_setInsert]
    simp only [List.mem_cons]
    tauto

/-- Membership in the next BFS frontier built from the predecessor
lists of the current one. -/
theorem mem_next_frontier (rs : RuleStore) (queue : List Nat) :
    ∀ (acc : List Nat) (x : Nat),
      x ∈ queue.foldl (fun nq i => (rs.backtraceGet i).foldl setInsert nq) acc ↔
        x ∈ acc ∨ ∃ i ∈ queue, x ∈ rs.backtraceGet i := by
  induction queue with
  | nil => intro acc x; simp
  | cons q rest ih =>
    intro acc x
    rw [List.foldl_cons, ih, mem_foldl_setInsert]
    simp only [List.mem_cons]
    constructor
    · rintro ((hx | hx) | ⟨i, hi, hx⟩)
      · exact Or.inl hx
      · exact Or.inr ⟨q, Or.inl rfl, hx⟩
      · exact Or.inr ⟨i, Or.inr hi, hx⟩
    · rintro (hx | ⟨i, rfl | hi, hx⟩)
      · exact Or.inl (Or.inl hx)
      · exact Or.inl (Or.inr hx)
      · exact Or.inr ⟨i, hi, hx⟩

/-- Lookup after one BFS layer's `or_insert` fold: an existing entry is
kept, a frontier state gets the layer distance. -/
theorem lookupA_fold_orInsert (queue : List Nat) (dist : Nat) :
    ∀ (m : List (Nat × Nat)) (s : Nat),
      lookupA (queue.foldl (fun acc i => orInsert acc i dist) m) s =
        match lookupA m s with
        | some v => some v
        | none => if s ∈ queue then some dist else none := by
  induction queue with
  | nil =>
    intro m s
    rcases hm : lookupA m s with _ | v <;> simp [hm]
  | cons q rest ih =>
    intro m s
    rw [List.foldl_cons, ih]
    rw [lookupA_orInsert]
    by_cases hs : s = q
    · subst hs
      cases hm : lookupA m s <;> simp [hm]
    · rcases hm : lookupA m s with _ | v <;>
        simp [hm, hs, if_neg hs, List.mem_cons]

/-- `add_rule` appends the source state to exactly the target state's
predecessor list. -/
theorem backtraceGet_add_rule (rs : RuleStore) (si syi syo so : Nat)
    (dir : Movement) (t : Nat) :
    (rs.add_rule si syi syo so dir).backtraceGet t =
      rs.backtraceGet t ++ (if t = so then [si] else []) := by
  rw [RuleStore.backtraceGet, RuleStore.add_rule, lookupA_modifyOrInsert]
  by_cases ht : t = so
  · subst ht
    rcases hb : lookupA rs.states_backtrace t with _ | v <;>
      simp [RuleStore.backtraceGet, hb]
  · simp [ht, RuleStore.backtraceGet]

/-- After feeding a rule list, a state is a recorded predecessor of `t`
exactly when it already was or the list holds an edge to `t`. -/
theorem mem_backtraceGet_addRules (ls : List RuleLine) :
    ∀ (rs : RuleStore) (x t : Nat),
      x ∈ (addRules rs ls).backtraceGet t ↔
        x ∈ rs.backtraceGet t ∨ EdgeL ls x t := by
  induction ls with
  | nil => intro rs x t; simp [addRules, EdgeL]
  | cons l rest ih =>
    intro rs x t
    rw [addRules, List.foldl_cons]
    rw [show (rest.foldl (fun acc l =>
        acc.add_rule l.state_in l.symb_in l.symb_out l.state_out l.dir)
        (rs.add_rule l.state_in l.symb_in l.symb_out l.state_out l.dir))
      = addRules (rs.add_rule l.state_in l.symb_in l.symb_out l.state_out l.dir) rest
      from rfl]
    rw [ih, backtraceGet_add_rule]
    simp only [List.mem_append, EdgeL, List.mem_cons]
    constructor
    · rintro ((hx | hx) | he)
      · exact Or.inl hx
      · by_cases ht : t = l.state_out
        · simp [ht] at hx
          exact Or.inr ⟨l, Or.inl rfl, hx.symm, ht.symm⟩
        · simp [ht] at hx
      · obtain ⟨r, hr, he1, he2⟩ := he
        exact Or.inr ⟨r, Or.inr hr, he1, he2⟩
    · rintro (hx | ⟨r, rfl | hr, he1, he2⟩)
      · exact Or.inl (Or.inl hx)
      · exact Or.inl (Or.inr (by simp [← he1, ← he2]))
      · exact Or.inr ⟨r, hr, he1, he2⟩

/-- `addFinals` leaves the predecessor adjacency untouched. -/
theorem states_backtrace_addFinals (fs : List Nat) :
    ∀ (rs : RuleStore), (addFinals rs fs).states_backtrace = rs.states_backtrace := by
  induction fs with
  | nil => intro rs; rfl
  | cons f rest ih =>
    intro rs
    rw [addFinals, List.foldl_cons]
    exact ih (rs.add_final f)

/-- `addRules` leaves the final-state set untouched. -/
theorem fin_s_addRules (ls : List RuleLine) :
    ∀ (rs : RuleStore), (addRules rs ls).fin_s = rs.fin_s := by
  induction ls with
  | nil => intro rs; rfl
  | cons l rest ih =>
    intro rs
    rw [addRules, List.foldl_cons]
    exact ih (rs.add_rule l.state_in l.symb_in l.symb_out l.state_out l.dir)

/-- Membership in the final-state set after `addFinals`. -/
theorem mem_fin_s_addFinals (fs : List Nat) :
    ∀ (rs : RuleStore) (x : Nat),
      x ∈ (addFinals rs fs).fin_s ↔ x ∈ rs.fin_s ∨ x ∈ fs := by
  induction fs with
  | nil => intro rs x; simp [addFinals]
  | cons f rest ih =>
    intro rs x
    rw [addFinals, List.foldl_cons]
    rw [show (rest.foldl (fun acc f => acc.add_final f) (rs.add_final f))
      = addFinals (rs.add_final f) rest from rfl]
    rw [ih]
    simp only [RuleStore.add_final, mem_setInsert, List.mem_cons]
    tauto

/-- Neither rules nor finals touch the distance map. -/
theorem states_dist_mkStore (ls : List RuleLine) (fs : List Nat) :
    (mkStore ls fs).states_dist = [] := by
  have h1 : ∀ (gs : List Nat) (rs : RuleStore),
      (addFinals rs gs).states_dist = rs.states_dist := by
    intro gs
    induction gs with
    | nil => intro rs; rfl
    | cons g rest ih =>
      intro rs
      rw [addFinals, List.foldl_cons]
      exact ih (rs.add_final g)
  have h2 : ∀ (ms : List RuleLine) (rs : RuleStore),
      (addRules rs ms).states_dist = rs.states_dist := by
    intro ms
    induction ms with
    | nil => intro rs; rfl
    | cons l rest ih =>
      intro rs
      rw [addRules, List.foldl_cons]
      exact ih (rs.add_rule l.state_in l.symb_in l.symb_out l.state_out l.dir)
  rw [mkStore, h1, h2]
  rfl

/-- In the built store, the predecessor lists record exactly the
transition-graph edges. -/
theorem mem_backtraceGet_mkStore (ls : List RuleLine) (fs : List Nat)
    (x t : Nat) :
    x ∈ (mkStore ls fs).backtraceGet t ↔ EdgeL ls x t := by
  rw [mkStore, RuleStore.backtraceGet, states_backtrace_addFinals]
  rw [show lookupA (addRules RuleStore.new ls).states_backtrace t
    = lookupA (addRules RuleStore.new ls).states_backtrace t from rfl]
  have := mem_backtraceGet_addRules ls RuleStore.new x t
  rw [RuleStore.backtraceGet] at this
  rw [this]
  simp [RuleStore.backtraceGet, RuleStore.new, lookupA]

/-- In the built store, the final-state set is the supplied list. -/
theorem mem_fin_s_mkStore (ls : List RuleLine) (fs : List Nat) (x : Nat) :
    x ∈ (mkStore ls fs).fin_s ↔ x ∈ fs := by
  rw [mkStore, mem_fin_s_addFinals, fin_s_addRules]
  simp [RuleStore.new]

/-- Once a BFS layer is empty, no state reaches a final in that many
steps — nor in any larger number of steps. -/
theorem reach_none_ge (ls : List RuleLine) (fs : List Nat) (d : Nat)
    (h : ∀ x, ¬ ReachesIn ls fs d x) :
    ∀ e, d ≤ e → ∀ x, ¬ ReachesIn ls fs e x := by
  intro e hle
  induction e, hle using Nat.le_induction with
  | base => exact h
  | succ n hn ihn =>
    rintro x ⟨t, _, hr⟩
    exact ihn t hr

/-- A nonempty set of step counts has a least element. -/
theorem exists_min_of_exists (P : Nat → Prop) (h : ∃ d, P d) :
    ∃ k, P k ∧ ∀ j < k, ¬ P j := by
  classical
  exact ⟨Nat.find h, Nat.find_spec h, fun j hj => Nat.find_min h hj⟩

/-- The BFS loop invariant: if the frontier is exactly the states
reaching a final in `d` steps and the map holds exactly the
shortest-path distances below `d`, then a completed loop yields exactly
the shortest-path distances. -/
theorem computeDistLoop_correct (ls : List RuleLine) (fs : List Nat) :
    ∀ (fuel : Nat) (queue : List Nat) (d : Nat) (m mfin : List (Nat × Nat)),
      (∀ x, x ∈ queue ↔ ReachesIn ls fs d x) →
      (∀ s k, lookupA m s = some k ↔
        (k < d ∧ ReachesIn ls fs k s ∧ ∀ j < k, ¬ ReachesIn ls fs j s)) →
      (mkStore ls fs).computeDistLoop fuel queue d m = some mfin →
      ∀ s k, lookupA mfin s = some k ↔
        (ReachesIn ls fs k s ∧ ∀ j < k, ¬ ReachesIn ls fs j s) := by
  have hempty : ∀ (d : Nat) (queue : List Nat) (m : List (Nat × Nat)),
      queue.isEmpty = true →
      (∀ x, x ∈ queue ↔ ReachesIn ls fs d x) →
      (∀ s k, lookupA m s = some k ↔
        (k < d ∧ ReachesIn ls fs k s ∧ ∀ j < k, ¬ ReachesIn ls fs j s)) →
      ∀ s k, lookupA m s = some k ↔
        (ReachesIn ls fs k s ∧ ∀ j < k, ¬ ReachesIn ls fs j s) := by
    intro d queue m hqe hq hm s k
    have hnil : queue = [] := List.isEmpty_iff.mp hqe
    have hnone : ∀ x, ¬ ReachesIn ls fs d x := by
      intro x hx
      have := (hq x).mpr hx
      rw [hnil] at this
      exact absurd this (List.not_mem_nil x)
    constructor
    · intro hk
      exact ((hm s k).mp hk).2
    · rintro ⟨hr, hmin⟩
      refine (hm s k).mpr ⟨?_, hr, hmin⟩
      by_contra hge
      exact reach_none_ge ls fs d hnone k (by omega) s hr
  intro fuel
  induction fuel with
  | zero =>
    intro queue d m mfin hq hm hloop s k
    rw [RuleStore.computeDistLoop] at hloop
    by_cases hqe : queue.isEmpty
    · rw [if_pos hqe] at hloop
      injection hloop with hh
      subst hh
      exact hempty d queue m hqe hq hm s k
    · rw [if_neg hqe] at hloop
      exact absurd hloop (by simp)
  | succ fuel ih =>
    intro queue d m mfin hq hm hloop s k
    rw [RuleStore.computeDistLoop] at hloop
    by_cases hqe : queue.isEmpty
    · rw [if_pos hqe] at hloop
      injection hloop with hh
      subst hh
      exact hempty d queue m hqe hq hm s k
    · rw [if_neg hqe] at hloop
      refine ih _ (d + 1) _ mfin ?_ ?_ hloop s k
      · intro x
        rw [mem_next_frontier]
        simp only [List.not_mem_nil, false_or]
        constructor
        · rintro ⟨i, hi, hx⟩
          exact ⟨i, (mem_backtraceGet_mkStore ls fs x i).mp hx, (hq i).mp hi⟩
        · rintro ⟨t, he, hr⟩
          exact ⟨t, (hq t).mpr hr, (mem_backtraceGet_mkStore ls fs x t).mpr he⟩
      · intro s' k'
        rw [lookupA_fold_orInsert]
        have hlt : lookupA m s' = none → ∀ j, j < d → ¬ ReachesIn ls fs j s' := by
          intro hms j hj hr
          obtain ⟨k0, hk0, hmin0⟩ :=
            exists_min_of_exists (fun e => ReachesIn ls fs e s') ⟨j, hr⟩
          have hk0j : k0 ≤ j := by
            by_contra hc
            exact hmin0 j (by omega) hr
          have := (hm s' k0).mpr ⟨by omega, hk0, hmin0⟩
          rw [hms] at this
          exact Option.noConfusion this
        rcases hms : lookupA m s' with _ | v
        · by_cases hsq : s' ∈ queue
          · simp only [if_pos hsq]
            constructor
            · intro hk
              have hkd : k' = d := by
                have := Option.some.injEq d k' ▸ hk
                injection hk with hk'
                omega
              subst hkd
              exact ⟨by omega, (hq s').mp hsq, hlt hms⟩
            · rintro ⟨hk1, hk2, hk3⟩
              have hkd : k' = d := by
                by_contra hc
                have hklt : k' < d := by omega
                exact hlt hms k' hklt hk2
              rw [hkd]
          · simp only [if_neg hsq]
            constructor
            · intro hk
              exact Option.noConfusion hk
            · rintro ⟨hk1, hk2, hk3⟩
              by_cases hkd : k' = d
              · subst hkd
                exact absurd ((hq s').mpr hk2) hsq
              · exact absurd hk2 (hlt hms k' (by omega))
        · have hv := (hm s' v).mp hms
          constructor
          · intro hk
            injection hk with hk'
            subst hk'
            exact ⟨by omega, hv.2.1, hv.2.2⟩
          · rintro ⟨hk1, hk2, hk3⟩
            have hvk : v = k' := by
              rcases Nat.lt_trichotomy v k' with h1 | h1 | h1
              · exact absurd hv.2.1 (hk3 v h1)
              · exact h1
              · exact absurd hk2 (hv.2.2 k' h1)
            rw [hvk]

/-- C8: after a completed `compute_dist()` on a freshly built store, a
state's stored distance is exactly the length of a shortest
transition-graph path to a final state, and states with no such path
have no stored distance. -/
theorem compute_dist_shortest (ls : List RuleLine) (fs : List Nat)
    (fuel : Nat) (rs' : RuleStore)
    (hrun : (mkStore ls fs).compute_dist fuel = some rs') (s : Nat) :
    (∀ k, rs'.distance s = some k ↔
      (ReachesIn ls fs k s ∧ ∀ j < k, ¬ ReachesIn ls fs j s)) ∧
    (rs'.distance s = none ↔ ∀ d, ¬ ReachesIn ls fs d s) := by
  rcases hl : (mkStore ls fs).computeDistLoop fuel (mkStore ls fs).fin_s 0
      (mkStore ls fs).states_dist with _ | mfin <;>
    simp only [RuleStore.compute_dist, hl] at hrun
  · exact Option.noConfusion hrun
  · injection hrun with hrun
    subst hrun
    have hmain := computeDistLoop_correct ls fs fuel (mkStore ls fs).fin_s 0
      (mkStore ls fs).states_dist mfin
      (by
        intro x
        rw [ReachesIn]
        exact mem_fin_s_mkStore ls fs x)
      (by
        intro s' k'
        rw [states_dist_mkStore]
        simp [lookupA])
      hl
    have hdist : ∀ k, ({ mkStore ls fs with states_dist := mfin } : RuleStore).distance s
        = some k ↔ lookupA mfin s = some k := by
      intro k
      rw [RuleStore.distance]
    constructor
    · intro k
      rw [hdist k]
      exact hmain s k
    · constructor
      · intro hnone d hr
        obtain ⟨k0, hk0, hmin0⟩ :=
          exists_min_of_exists (fun e => ReachesIn ls fs e s) ⟨d, hr⟩
        have := (hmain s k0).mpr ⟨hk0, hmin0⟩
        rw [RuleStore.distance] at hnone
        rw [hnone] at this
        exact Option.noConfusion this
      · intro hall
        rcases hd : ({ mkStore ls fs with states_dist := mfin } : RuleStore).distance s
          with _ | k
        · rfl
        · rw [RuleStore.distance] at hd
          exact absurd ((hmain s k).mp hd).1 (hall k)

/-- C8 witness: the shortest-distance theorem applied to the fixture
rule file (distances 2 → 0, 1 → 1, 0 → 2). -/
theorem compute_dist_shortest_witness :
    (mkStore exLines [2]).compute_dist 10 = some exRulesD ∧
    ((∀ k, exRulesD.distance 0 = some k ↔
      (ReachesIn exLines [2] k 0 ∧ ∀ j < k, ¬ ReachesIn exLines [2] j 0)) ∧
     (exRulesD.distance 0 = none ↔ ∀ d, ¬ ReachesIn exLines [2] d 0)) := by
  refine ⟨by decide, ?_⟩
  exact compute_dist_shortest exLines [2] 10 exRulesD (by decide) 0

/-- `extract_next` splits a cell into its link and the stripped cell. -/
theorem Cell.extract_next_eq (c : Cell) :
    c.extract_next = (c.nextLink, c.set_next Link.NoneL) := by
  cases c <;> rfl

/-- Setting the link a cell already has is the identity. -/
theorem Cell.set_next_self {c : Cell} {l : Link} (hc : c.nextLink = l) :
    c.set_next l = c := by
  cases c <;> simp_all [Cell.set_next, Cell.nextLink]

/-- The second `set_next` wins. -/
theorem Cell.set_next_set_next (c : Cell) (a b : Link) :
    (c.set_next a).set_next b = c.set_next b := by
  cases c <;> rfl

/-- The link after a `set_next`. -/
theorem Cell.set_next_nextLink (c : Cell) (a : Link) :
    (c.set_next a).nextLink = a := by
  cases c <;> rfl

/-- `Cell::write` never touches the cell store. -/
theorem Cell.write_cells (c : Cell) (b : List Nat) (h : Heap) :
    ((c.write b h).2).cells = h.cells := by
  cases c <;> simp [Cell.write]

/-- A focusable link focuses. -/
theorem linkOk_focus {l : Link} {h : Heap} (hok : linkOk l h = true) :
    ∃ c, Link.focus l h = some c := by
  cases l with
  | Edge => exact ⟨Cell.Empty Link.Edge, rfl⟩
  | Same rc =>
    simp [linkOk] at hok
    exact ⟨h.cells.get ⟨rc, hok⟩, by simp [Link.focus, List.get?_eq_get hok]⟩
  | Uncle rc =>
    simp [linkOk] at hok
    have hg : h.cells.get? rc = some (h.cells.get ⟨rc, hok⟩) := List.get?_eq_get hok
    rw [List.get?_eq_getElem?] at hg
    rcases hc : h.cells.get ⟨rc, hok⟩ with ⟨buf, nxt⟩ | ⟨buf, nxt⟩ | nxt <;>
      rw [hc] at hg <;>
      simp [Link.focus, hg]
  | NoneL => simp [linkOk] at hok

/-- `linkOk` only depends on the cell store. -/
theorem linkOk_cells_eq {l : Link} {h1 h2 : Heap} (hc : h1.cells = h2.cells) :
    linkOk l h1 = linkOk l h2 := by
  cases l <;> simp [linkOk, hc]

/-- `linkOk` survives allocations. -/
theorem linkOk_extend {l : Link} {h : Heap} (hok : linkOk l h = true)
    (e : List Cell) : linkOk l { h with cells := h.cells ++ e } = true := by
  cases l <;> simp_all [linkOk] <;> omega

/-- A cell with a focusable link focuses into its stripped self and some
materialized neighbor. -/
theorem Cell.focus_of_ok {c : Cell} {h : Heap}
    (hok : linkOk c.nextLink h = true) :
    ∃ nw, c.focus h = some (c.set_next Link.NoneL, nw) := by
  obtain ⟨nw, hnw⟩ := linkOk_focus hok
  exact ⟨nw, by simp [Cell.focus, Cell.extract_next_eq, hnw]⟩

/-- What one leftward rotation of the tape triple does. -/
theorem tape_shift_left_ok (t : Tape) (h : Heap)
    (hok : linkOk t.left.nextLink h = true) :
    ∃ nl, t.tape_shift Side.Left h =
      some ({ t with
                left := nl
                focus := t.left.set_next Link.NoneL
                right := t.focus.set_next (Link.Same h.cells.length) },
            { h with cells := h.cells ++ [t.right] }) := by
  obtain ⟨nw, hnw⟩ := Cell.focus_of_ok hok
  exact ⟨nw, by simp [Tape.tape_shift, hnw, Cell.shiftCell]⟩

/-- What one rightward rotation of the tape triple does. -/
theorem tape_shift_right_ok (t : Tape) (h : Heap)
    (hok : linkOk t.right.nextLink h = true) :
    ∃ nr, t.tape_shift Side.Right h =
      some ({ t with
                right := nr
                focus := t.right.set_next Link.NoneL
                left := t.focus.set_next (Link.Same h.cells.length) },
            { h with cells := h.cells ++ [t.left] }) := by
  obtain ⟨nw, hnw⟩ := Cell.focus_of_ok hok
  exact ⟨nw, by simp [Tape.tape_shift, hnw, Cell.shiftCell]⟩

/-- C9: shifting one step in a direction and then back returns the
cursor to the same cell (the focus is restored) at the same intra-cell
offset, and the symbol read is unchanged — across the pure in-window
move, the window switch, and the cache-miss flush-and-rotate paths. -/
theorem shift_roundtrip (W : Nat) (t : Tape) (h : Heap) (d : Movement)
    (hd : d = Movement.Left ∨ d = Movement.Right)
    (hcur : t.cache.cursor < W)
    (hfoc : t.focus.nextLink = Link.NoneL)
    (hokL : linkOk t.left.nextLink h = true)
    (hokR : linkOk t.right.nextLink h = true) :
    ∃ t1 h1 t2 h2,
      t.shift W d h = some (t1, h1) ∧
      t1.shift W d.opposite h1 = some (t2, h2) ∧
      t2.focus = t.focus ∧
      t2.cache.cursor = t.cache.cursor ∧
      t2.read = t.read := by
  obtain ⟨⟨bl, br, cur, side, d1, d2⟩, emp, foc, lef, rig⟩ := t
  simp only [Movement.opposite] at *
  rcases hd with rfl | rfl
  · -- d = Left
    by_cases hc0 : cur > 0
    · -- A: move inside the active buffer and back
      refine ⟨⟨⟨bl, br, cur - 1, side, d1, d2⟩, emp, foc, lef, rig⟩, h,
              ⟨⟨bl, br, cur - 1 + 1, side, d1, d2⟩, emp, foc, lef, rig⟩, h,
              ?_, ?_, rfl, ?_, ?_⟩
      · simp [Tape.shift, Cache.shift, hc0]
      · have hlt : cur - 1 < W - 1 := by omega
        simp [Tape.shift, Cache.shift, hlt]
      · show cur - 1 + 1 = cur
        omega
      · have hceq : cur - 1 + 1 = cur := by omega
        cases side <;> simp [Tape.read, Cache.read, hceq]
    · -- cur = 0
      have hc : cur = 0 := by omega
      subst hc
      by_cases hside : side = Side.Right
      · -- B: window switch left, then switch back right
        subst hside
        obtain ⟨nl, hts1⟩ := tape_shift_left_ok
          ⟨⟨bl, br, W - 1, Side.Left, d1, d2⟩, emp, foc, lef, rig⟩ h hokL
        have hokn : linkOk (Cell.set_next foc (Link.Same h.cells.length)).nextLink
            { h with cells := h.cells ++ [rig] } = true := by
          simp [Cell.set_next_nextLink, linkOk]
        obtain ⟨nr, hts2⟩ := tape_shift_right_ok
          ⟨⟨bl, br, 0, Side.Right, d1, d2⟩, emp, Cell.set_next lef Link.NoneL, nl,
            Cell.set_next foc (Link.Same h.cells.length)⟩
          { h with cells := h.cells ++ [rig] } hokn
        refine ⟨⟨⟨bl, br, W - 1, Side.Left, d1, d2⟩, emp,
                  Cell.set_next lef Link.NoneL, nl,
                  Cell.set_next foc (Link.Same h.cells.length)⟩,
                ⟨h.cells ++ [rig], h.bufs⟩,
                ⟨⟨bl, br, 0, Side.Right, d1, d2⟩, emp,
                  (Cell.set_next foc (Link.Same h.cells.length)).set_next Link.NoneL,
                  (Cell.set_next lef Link.NoneL).set_next
                    (Link.Same (h.cells ++ [rig]).length), nr⟩,
                ⟨(h.cells ++ [rig]) ++ [nl], h.bufs⟩,
                ?_, ?_, ?_, rfl, rfl⟩
        · simp only [Tape.shift, Cache.shift]
          simp [hts1]
        · simp only [Tape.shift, Cache.shift]
          simp [hts2]
        · show (Cell.set_next foc (Link.Same h.cells.length)).set_next Link.NoneL = foc
          rw [Cell.set_next_set_next]
          exact Cell.set_next_self hfoc
      · -- C: miss on the left edge of the window
        have hsideL : side = Side.Left := by
          cases side
          · rfl
          · exact absurd rfl hside
        subst hsideL
        obtain ⟨bf, hbf⟩ : ∃ bf,
            (match Cell.read lef h with
             | some x => x
             | none => List.replicate W emp) = bf := ⟨_, rfl⟩
        cases d2 with
        | false =>
          obtain ⟨nl, hts1⟩ := tape_shift_left_ok
            ⟨⟨bf, bl, W - 1, Side.Left, false, d1⟩, emp, foc, lef, rig⟩ h hokL
          have hokn : linkOk (Cell.set_next foc (Link.Same h.cells.length)).nextLink
              { h with cells := h.cells ++ [rig] } = true := by
            simp [Cell.set_next_nextLink, linkOk]
          obtain ⟨nr, hts2⟩ := tape_shift_right_ok
            ⟨⟨bf, bl, 0, Side.Right, false, d1⟩, emp, Cell.set_next lef Link.NoneL, nl,
              Cell.set_next foc (Link.Same h.cells.length)⟩
            { h with cells := h.cells ++ [rig] } hokn
          refine ⟨⟨⟨bf, bl, W - 1, Side.Left, false, d1⟩, emp,
                    Cell.set_next lef Link.NoneL, nl,
                    Cell.set_next foc (Link.Same h.cells.length)⟩,
                  ⟨h.cells ++ [rig], h.bufs⟩,
                  ⟨⟨bf, bl, 0, Side.Right, false, d1⟩, emp,
                    (Cell.set_next foc (Link.Same h.cells.length)).set_next Link.NoneL,
                    (Cell.set_next lef Link.NoneL).set_next
                      (Link.Same (h.cells ++ [rig]).length), nr⟩,
                  ⟨(h.cells ++ [rig]) ++ [nl], h.bufs⟩,
                  ?_, ?_, ?_, rfl, rfl⟩
          · simp only [Tape.shift, Cache.shift, Cache.shift_flush]
            simp [hbf, hts1]
          · simp only [Tape.shift, Cache.shift]
            simp [hts2]
          · show (Cell.set_next foc (Link.Same h.cells.length)).set_next Link.NoneL = foc
            rw [Cell.set_next_set_next]
            exact Cell.set_next_self hfoc
        | true =>
          obtain ⟨rg2, h2, hw⟩ : ∃ rg2 h2, Cell.write rig br h = (rg2, h2) :=
            ⟨_, _, rfl⟩
          have hcells2 : h2.cells = h.cells := by
            have := Cell.write_cells rig br h
            rw [hw] at this
            exact this
          have hokL2 : linkOk lef.nextLink h2 = true := by
            rw [linkOk_cells_eq hcells2]
            exact hokL
          obtain ⟨nl, hts1⟩ := tape_shift_left_ok
            ⟨⟨bf, bl, W - 1, Side.Left, false, d1⟩, emp, foc, lef, rg2⟩ h2 hokL2
          have hokn : linkOk (Cell.set_next foc (Link.Same h2.cells.length)).nextLink
              { h2 with cells := h2.cells ++ [rg2] } = true := by
            simp [Cell.set_next_nextLink, linkOk]
          obtain ⟨nr, hts2⟩ := tape_shift_right_ok
            ⟨⟨bf, bl, 0, Side.Right, false, d1⟩, emp, Cell.set_next lef Link.NoneL, nl,
              Cell.set_next foc (Link.Same h2.cells.length)⟩
            { h2 with cells := h2.cells ++ [rg2] } hokn
          refine ⟨⟨⟨bf, bl, W - 1, Side.Left, false, d1⟩, emp,
                    Cell.set_next lef Link.NoneL, nl,
                    Cell.set_next foc (Link.Same h2.cells.length)⟩,
                  ⟨h2.cells ++ [rg2], h2.bufs⟩,
                  ⟨⟨bf, bl, 0, Side.Right, false, d1⟩, emp,
                    (Cell.set_next foc (Link.Same h2.cells.length)).set_next Link.NoneL,
                    (Cell.set_next lef Link.NoneL).set_next
                      (Link.Same (h2.cells ++ [rg2]).length), nr⟩,
                  ⟨(h2.cells ++ [rg2]) ++ [nl], h2.bufs⟩,
                  ?_, ?_, ?_, rfl, rfl⟩
          · simp only [Tape.shift, Cache.shift, Cache.shift_flush]
            simp [hbf, hw, hts1]
          · simp only [Tape.shift, Cache.shift]
            simp [hts2]
          · show (Cell.set_next foc (Link.Same h2.cells.length)).set_next Link.NoneL = foc
            rw [Cell.set_next_set_next]
            exact Cell.set_next_self hfoc
  · -- d = Right
    by_cases hcw : cur < W - 1
    · -- A2: move inside the active buffer and back
      refine ⟨⟨⟨bl, br, cur + 1, side, d1, d2⟩, emp, foc, lef, rig⟩, h,
              ⟨⟨bl, br, cur + 1 - 1, side, d1, d2⟩, emp, foc, lef, rig⟩, h,
              ?_, ?_, rfl, ?_, ?_⟩
      · simp [Tape.shift, Cache.shift, hcw]
      · simp [Tape.shift, Cache.shift]
      · show cur + 1 - 1 = cur
        omega
      · cases side <;> simp [Tape.read, Cache.read]
    · -- cur = W - 1
      have hc : cur = W - 1 := by omega
      subst hc
      by_cases hside : side = Side.Left
      · -- B2: window switch right, then switch back left
        subst hside
        obtain ⟨nr, hts1⟩ := tape_shift_right_ok
          ⟨⟨bl, br, 0, Side.Right, d1, d2⟩, emp, foc, lef, rig⟩ h hokR
        have hokn : linkOk (Cell.set_next foc (Link.Same h.cells.length)).nextLink
            { h with cells := h.cells ++ [lef] } = true := by
          simp [Cell.set_next_nextLink, linkOk]
        obtain ⟨nl, hts2⟩ := tape_shift_left_ok
          ⟨⟨bl, br, W - 1, Side.Left, d1, d2⟩, emp, Cell.set_next rig Link.NoneL,
            Cell.set_next foc (Link.Same h.cells.length), nr⟩
          { h with cells := h.cells ++ [lef] } hokn
        refine ⟨⟨⟨bl, br, 0, Side.Right, d1, d2⟩, emp,
                  Cell.set_next rig Link.NoneL,
                  Cell.set_next foc (Link.Same h.cells.length), nr⟩,
                ⟨h.cells ++ [lef], h.bufs⟩,
                ⟨⟨bl, br, W - 1, Side.Left, d1, d2⟩, emp,
                  (Cell.set_next foc (Link.Same h.cells.length)).set_next Link.NoneL,
                  nl,
                  (Cell.set_next rig Link.NoneL).set_next
                    (Link.Same (h.cells ++ [lef]).length)⟩,
                ⟨(h.cells ++ [lef]) ++ [nr], h.bufs⟩,
                ?_, ?_, ?_, rfl, rfl⟩
        · simp only [Tape.shift, Cache.shift]
          simp [hts1]
        · simp only [Tape.shift, Cache.shift]
          simp [hts2]
        · show (Cell.set_next foc (Link.Same h.cells.length)).set_next Link.NoneL = foc
          rw [Cell.set_next_set_next]
          exact Cell.set_next_self hfoc
      · -- C2: miss on the right edge of the window
        have hsideR : side = Side.Right := by
          cases side
          · exact absurd rfl hside
          · rfl
        subst hsideR
        obtain ⟨bf, hbf⟩ : ∃ bf,
            (match Cell.read rig h with
             | some x => x
             | none => List.replicate W emp) = bf := ⟨_, rfl⟩
        cases d1 with
        | false =>
          obtain ⟨nr, hts1⟩ := tape_shift_right_ok
            ⟨⟨br, bf, 0, Side.Right, d2, false⟩, emp, foc, lef, rig⟩ h hokR
          have hokn : linkOk (Cell.set_next foc (Link.Same h.cells.length)).nextLink
              { h with cells := h.cells ++ [lef] } = true := by
            simp [Cell.set_next_nextLink, linkOk]
          obtain ⟨nl, hts2⟩ := tape_shift_left_ok
            ⟨⟨br, bf, W - 1, Side.Left, d2, false⟩, emp, Cell.set_next rig Link.NoneL,
              Cell.set_next foc (Link.Same h.cells.length), nr⟩
            { h with cells := h.cells ++ [lef] } hokn
          refine ⟨⟨⟨br, bf, 0, Side.Right, d2, false⟩, emp,
                    Cell.set_next rig Link.NoneL,
                    Cell.set_next foc (Link.Same h.cells.length), nr⟩,
                  ⟨h.cells ++ [lef], h.bufs⟩,
                  ⟨⟨br, bf, W - 1, Side.Left, d2, false⟩, emp,
                    (Cell.set_next foc (Link.Same h.cells.length)).set_next Link.NoneL,
                    nl,
                    (Cell.set_next rig Link.NoneL).set_next
                      (Link.Same (h.cells ++ [lef]).length)⟩,
                  ⟨(h.cells ++ [lef]) ++ [nr], h.bufs⟩,
                  ?_, ?_, ?_, rfl, rfl⟩
          · simp only [Tape.shift, Cache.shift, Cache.shift_flush]
            simp [hbf, hts1]
          · simp only [Tape.shift, Cache.shift]
            simp [hts2]
          · show (Cell.set_next foc (Link.Same h.cells.length)).set_next Link.NoneL = foc
            rw [Cell.set_next_set_next]
            exact Cell.set_next_self hfoc
        | true =>
          obtain ⟨lf2, h2, hw⟩ : ∃ lf2 h2, Cell.write lef bl h = (lf2, h2) :=
            ⟨_, _, rfl⟩
          have hcells2 : h2.cells = h.cells := by
            have := Cell.write_cells lef bl h
            rw [hw] at this
            exact this
          have hokR2 : linkOk rig.nextLink h2 = true := by
            rw [linkOk_cells_eq hcells2]
            exact hokR
          obtain ⟨nr, hts1⟩ := tape_shift_right_ok
            ⟨⟨br, bf, 0, Side.Right, d2, false⟩, emp, foc, lf2, rig⟩ h2 hokR2
          have hokn : linkOk (Cell.set_next foc (Link.Same h2.cells.length)).nextLink
              { h2 with cells := h2.cells ++ [lf2] } = true := by
            simp [Cell.set_next_nextLink, linkOk]
          obtain ⟨nl, hts2⟩ := tape_shift_left_ok
            ⟨⟨br, bf, W - 1, Side.Left, d2, false⟩, emp, Cell.set_next rig Link.NoneL,
              Cell.set_next foc (Link.Same h2.cells.length), nr⟩
            { h2 with cells := h2.cells ++ [lf2] } hokn
          refine ⟨⟨⟨br, bf, 0, Side.Right, d2, false⟩, emp,
                    Cell.set_next rig Link.NoneL,
                    Cell.set_next foc (Link.Same h2.cells.length), nr⟩,
                  ⟨h2.cells ++ [lf2], h2.bufs⟩,
                  ⟨⟨br, bf, W - 1, Side.Left, d2, false⟩, emp,
                    (Cell.set_next foc (Link.Same h2.cells.length)).set_next Link.NoneL,
                    nl,
                    (Cell.set_next rig Link.NoneL).set_next
                      (Link.Same (h2.cells ++ [lf2]).length)⟩,
                  ⟨(h2.cells ++ [lf2]) ++ [nr], h2.bufs⟩,
                  ?_, ?_, ?_, rfl, rfl⟩
          · simp only [Tape.shift, Cache.shift, Cache.shift_flush]
            simp [hbf, hw, hts1]
          · simp only [Tape.shift, Cache.shift]
            simp [hts2]
          · show (Cell.set_next foc (Link.Same h2.cells.length)).set_next Link.NoneL = foc
            rw [Cell.set_next_set_next]
            exact Cell.set_next_self hfoc

/-- C9 witness: the round trip applied to the fixture tape, direction
Left. -/
theorem shift_roundtrip_witness :
    ((Movement.Left = Movement.Left ∨ Movement.Left = Movement.Right) ∧
     exTape.cache.cursor < 5 ∧
     exTape.focus.nextLink = Link.NoneL ∧
     linkOk exTape.left.nextLink exHeap = true ∧
     linkOk exTape.right.nextLink exHeap = true) ∧
    (∃ t1 h1 t2 h2,
      exTape.shift 5 Movement.Left exHeap = some (t1, h1) ∧
      t1.shift 5 Movement.Left.opposite h1 = some (t2, h2) ∧
      t2.focus = exTape.focus ∧
      t2.cache.cursor = exTape.cache.cursor ∧
      t2.read = exTape.read) := by
  refine ⟨⟨Or.inl rfl, by decide, by decide, by decide, by decide⟩, ?_⟩
  exact shift_roundtrip 5 exTape exHeap Movement.Left (Or.inl rfl) (by decide)
    (by decide) (by decide) (by decide)

end NdtmRs
